import Mathlib

/-!
A verification development for `vocoder.cc`.

The program is a phase vocoder: a recursive radix-2 FFT, its inverse, a Hann
window, the short-time Fourier transform and its overlap-add inverse, and the
phase-tracking loop between them.

The embedding:

* `double` is a field `R`, `std::complex<double>` a field `C`.  The calls into
  `<cmath>` and `<complex>` are the fields of `Numerics R C`, so every function
  of the program is an ordinary computable definition over any carrier.  Over
  `ℝ` and `ℂ` the predicate `Numerics.Exact` pins each call to its mathematical
  meaning; theorems "over exact arithmetic" assume it.
* `std::valarray` and `std::vector` are lists.  A `size_t` value is a natural
  number below `sizeModulus`, and the sums and products of sizes that the
  source forms in `stft` and `istft` are reduced modulo it, as the 64-bit type
  wraps.  A `std::vector<double>` of more than `maxVectorSize` elements is
  refused by the library (`std::length_error`); short of that, memory is
  taken to suffice.
* An element access `a[i]` whose index is not below `a.size()` has no defined
  behaviour in C++; the embedding makes such a run return `none`.  The same
  value marks a refused allocation and a loop that has not ended within its
  fuel.
-/

namespace Vocoder

set_option linter.unusedVariables false
set_option linter.unusedSectionVars false

/-- The calls into `<cmath>` and `<complex>` made by the program, and its constant `PI`. -/
structure Numerics (R C : Type) where
  /-- The constant `PI` (line 10). -/
  PI : R
  /-- The function `cos`. -/
  cos : R → R
  /-- The function `std::round`. -/
  round : R → R
  /-- The function `std::polar(rho, theta)`. -/
  polar : R → R → C
  /-- The function `std::abs` on `Complex`. -/
  abs : C → R
  /-- The function `std::arg`. -/
  arg : C → R
  /-- The member `real()`. -/
  real : C → R
  /-- The function `std::conj`. -/
  conj : C → C
  /-- The conversion `double → Complex`. -/
  ofReal : R → C

/-- Rounding of `std::round`: to the nearest integer, halves away from zero. -/
def roundHalfAway {α : Type} [LinearOrderedField α] [FloorRing α] (x : α) : ℤ :=
  if 0 ≤ x then ⌊x + 1 / 2⌋ else ⌈x - 1 / 2⌉

/-- Exact arithmetic: every library call has its mathematical value, and the constant
`PI`, of which the source writes the first digits, is the number pi. -/
structure Numerics.Exact (M : Numerics ℝ ℂ) : Prop where
  PI_eq : M.PI = Real.pi
  cos_eq : ∀ x, M.cos x = Real.cos x
  round_eq : ∀ x, M.round x = (roundHalfAway x : ℝ)
  polar_eq : ∀ r θ, M.polar r θ = (r : ℂ) * Complex.exp ((θ : ℂ) * Complex.I)
  abs_eq : ∀ z, M.abs z = Complex.abs z
  arg_eq : ∀ z, M.arg z = Complex.arg z
  real_eq : ∀ z, M.real z = z.re
  conj_eq : ∀ z, M.conj z = (starRingEnd ℂ) z
  ofReal_eq : ∀ r, M.ofReal r = (r : ℂ)

section Program

variable {R C : Type} [Field R] [Field C]

/-- A counted loop `for (k = 0; k < n; ++k) body`, over the state `s`. -/
def forLoop {σ : Type} (n : Nat) (body : Nat → σ → σ) (s : σ) : σ :=
  match n with
  | 0 => s
  | k + 1 => body k (forLoop k body s)

/-- A counted loop whose body may fail (an access out of bounds). -/
def forLoopM {σ : Type} (n : Nat) (body : Nat → σ → Option σ) (s : σ) : Option σ :=
  match n with
  | 0 => some s
  | k + 1 => (forLoopM k body s).bind (body k)

/-- The selection `x[std::slice(start, size, stride)]`. In `fft` the last index taken,
`start + 2 * (N/2 - 1)`, is below `N`. -/
def slice (x : List C) (start size stride : Nat) : List C :=
  (List.range size).map fun i => x.getD (start + i * stride) 0

/-- The combine loop of `fft` (lines 31-35) on a buffer of `N` elements. Every index it
touches is in bounds: `k < N/2` in `even` and `odd`, and `k + N/2 < N` in `x`. -/
def fftCombine (M : Numerics R C) (N : Nat) (even odd x : List C) : List C :=
  forLoop (N / 2) (fun k x =>
    let t := M.polar 1 (-2 * M.PI * (k : R) / (N : R)) * odd.getD k 0
    let x := x.set k (even.getD k 0 + t)
    x.set (k + N / 2) (even.getD k 0 - t)) x

/-- The recursion of `fft` (lines 18-36); `fuel` bounds the depth. -/
def fftAux (M : Numerics R C) : Nat → List C → List C
  | 0, x => x
  | fuel + 1, x =>
    if x.length ≤ 1 then x
    else
      let even := fftAux M fuel (slice x 0 (x.length / 2) 2)
      let odd := fftAux M fuel (slice x 1 (x.length / 2) 2)
      fftCombine M x.length even odd x

/-- Forward FFT (lines 18-36). The depth never exceeds the length. -/
def fft (M : Numerics R C) (x : List C) : List C :=
  fftAux M x.length x

/-- Inverse FFT (lines 39-44). -/
def ifft (M : Numerics R C) (x : List C) : List C :=
  let x := x.map M.conj
  let x := fft M x
  let x := x.map M.conj
  x.map fun z => z / M.ofReal (x.length : R)

/-- Window function (lines 47-53). For `N = 1` the source divides zero by zero; what is
proved about the window assumes `N ≥ 2`. -/
def hanning_window (M : Numerics R C) (N : Nat) : List R :=
  (List.range N).map fun (n : Nat) =>
    0.5 * (1 - M.cos (2 * M.PI * (n : R) / ((N - 1 : Nat) : R)))

/-- The number of values of `size_t` on the 64-bit target; arithmetic on sizes wraps
modulo it. -/
def sizeModulus : Nat := 2 ^ 64

/-- The value `max_size()` of a `std::vector<double>` (`PTRDIFF_MAX / sizeof(double)`):
the constructor refuses a larger element count with `std::length_error`. -/
def maxVectorSize : Nat := 2 ^ 60 - 1

/-- The frame built at offset `i` by `stft` (lines 61-64), before the transform. The
index `i + j` is a `size_t` sum. -/
def stftFrame (M : Numerics R C) (signal window : List R) (window_size i : Nat) :
    Option (List C) :=
  forLoopM window_size (fun j frame => do
    let s ← signal[(i + j) % sizeModulus]?
    let w ← window[j]?
    if j < frame.length then some (frame.set j (M.ofReal (s * w))) else none)
    (List.replicate window_size 0)

/-- The loop of `stft` (lines 60-67) from offset `i`; `none` when the fuel runs out. The
guard `i + window_size <= signal.size()` and the step `i += hop_size` are `size_t` sums. -/
def stftLoop (M : Numerics R C) (signal window : List R) (window_size hop_size : Nat) :
    Nat → Nat → List (List C) → Option (List (List C))
  | 0, _, _ => none
  | fuel + 1, i, stft_frames =>
    if (i + window_size) % sizeModulus ≤ signal.length then
      match stftFrame M signal window window_size i with
      | none => none
      | some frame =>
        stftLoop M signal window window_size hop_size fuel ((i + hop_size) % sizeModulus)
          (stft_frames ++ [fft M frame])
    else some stft_frames

/-- Short-Time Fourier Transform (lines 56-69). The window of line 58 is a
`std::vector<double>` of `window_size` elements. A run of the loop that passes the guard
and reads in bounds stands at an offset not above the signal length, so a run that ends
or faults has done so within `signal.size() + 2` evaluations of the guard, unless an
offset comes back, and then the loop does not end. -/
def stft (M : Numerics R C) (signal : List R) (window_size hop_size : Nat) :
    Option (List (List C)) :=
  if maxVectorSize < window_size then none
  else
    stftLoop M signal (hanning_window M window_size) window_size hop_size
      (signal.length + 2) 0 []

/-- The inner loop of `istft` (lines 80-82) for frame `i`: the inverse-transformed
`frame`, windowed, is added into `signal` from offset `i * hop_size`, a `size_t` product
and sum. -/
def overlapAdd (M : Numerics R C) (frame : List C) (window : List R)
    (window_size hop_size i : Nat) (signal : List R) : Option (List R) :=
  forLoopM window_size (fun j signal => do
    let z ← frame[j]?
    let w ← window[j]?
    let s ← signal[(i * hop_size + j) % sizeModulus]?
    some (signal.set ((i * hop_size + j) % sizeModulus) (s + M.real z * w))) signal

/-- Inverse Short-Time Fourier Transform (lines 72-85). The length of the output buffer
(line 73) is a `size_t` product and sum; the buffer and the window of line 74 are
`std::vector<double>`. -/
def istft (M : Numerics R C) (stft_frames : List (List C)) (window_size hop_size : Nat) :
    Option (List R) :=
  let size := (stft_frames.length * hop_size + window_size) % sizeModulus
  if maxVectorSize < size then none
  else if maxVectorSize < window_size then none
  else
    let signal : List R := List.replicate size 0
    let window := hanning_window M window_size
    forLoopM stft_frames.length (fun i signal => do
      let frame ← stft_frames[i]?
      let frame := ifft M frame
      overlapAdd M frame window window_size hop_size i signal) signal

/-- The variables of `phase_vocoder` that its loop updates. -/
structure VocoderState (C : Type) where
  last_phase : List C
  new_phase : List C
  processed_frames : List (List C)

/-- The value assigned to `new_phase[k]` on line 109, from the analysed bin `z`,
`last_phase[k]` and the old `new_phase[k]`. -/
def advancePhase (M : Numerics R C) (window_size hop_size : Nat) (time_stretch : R)
    (k : Nat) (z last new : C) : C :=
  let phase := M.arg z
  let delta_phase := phase - M.real last
  let delta_phase := delta_phase - 2 * M.PI * M.round (delta_phase / (2 * M.PI))
  let true_freq := 2 * M.PI * (k : R) / (window_size : R) + delta_phase / (hop_size : R)
  new + M.ofReal (true_freq * (hop_size : R) * time_stretch)

/-- The value emitted for a bin on line 110. -/
def emitBin (M : Numerics R C) (z new : C) : C :=
  let magnitude := M.abs z
  M.polar magnitude (M.real new)

/-- The body of the inner loop of `phase_vocoder` (lines 101-110) for frame `i`, bin `k`. -/
def vocoderBin (M : Numerics R C) (window_size hop_size : Nat) (time_stretch : R)
    (stft_frames : List (List C)) (i k : Nat) (s : VocoderState C) :
    Option (VocoderState C) := do
  let analysed ← stft_frames[i]?
  let z ← analysed[k]?
  let last ← s.last_phase[k]?
  let new ← s.new_phase[k]?
  let new := advancePhase M window_size hop_size time_stretch k z last new
  let new_phase := s.new_phase.set k new
  let frame ← s.processed_frames[i]?
  if k < frame.length then
    some { s with
      new_phase := new_phase
      processed_frames := s.processed_frames.set i (frame.set k (emitBin M z new)) }
  else none

/-- The body of the outer loop of `phase_vocoder` (lines 100-112) for frame `i`. -/
def vocoderFrame (M : Numerics R C) (window_size hop_size : Nat) (time_stretch : R)
    (stft_frames : List (List C)) (i : Nat) (s : VocoderState C) :
    Option (VocoderState C) := do
  let s ← forLoopM window_size
    (vocoderBin M window_size hop_size time_stretch stft_frames i) s
  some { s with last_phase := s.new_phase }

/-- The processing loop of `phase_vocoder` (lines 93-113): the processed frames. -/
def processFrames (M : Numerics R C) (window_size hop_size : Nat) (time_stretch : R)
    (stft_frames : List (List C)) : Option (List (List C)) := do
  let s ← forLoopM stft_frames.length
    (vocoderFrame M window_size hop_size time_stretch stft_frames)
    { last_phase := List.replicate window_size 0
      new_phase := List.replicate window_size 0
      processed_frames := List.replicate stft_frames.length [] }
  some s.processed_frames

/-- Phase Vocoder (lines 88-116). -/
def phase_vocoder (M : Numerics R C) (signal : List R) (time_stretch : R)
    (sample_rate : Int) : Option (List R) := do
  let window_size := 1024
  let hop_size := window_size / 4
  let stft_frames ← stft M signal window_size hop_size
  let processed_frames ← processFrames M window_size hop_size time_stretch stft_frames
  istft M processed_frames window_size hop_size

/-- The buffer `stft` hands to `fft` at offset `i`: element `j` is
`signal[i + j] * window[j]`, converted to `Complex`. -/
def windowedFrame (M : Numerics R C) (signal window : List R) (window_size i : Nat) : List C :=
  (List.range window_size).map fun j => M.ofReal (signal.getD (i + j) 0 * window.getD j 0)

/-- The number of frames the claims give for `stft`. -/
def frameCount (L W H : Nat) : Nat :=
  if W ≤ L then (L - W) / H + 1 else 0

/-- Frames still to come when the loop of `stft` stands at offset `i`. -/
def framesLeft (L W H i : Nat) : Nat :=
  if i + W ≤ L then (L - (i + W)) / H + 1 else 0

/-- The contribution of frame `i` to sample `p` of the signal `istft` builds. -/
def overlapTerm (M : Numerics R C) (stft_frames : List (List C)) (window_size hop_size : Nat)
    (i p : Nat) : R :=
  if i * hop_size ≤ p ∧ p < i * hop_size + window_size then
    M.real ((ifft M (stft_frames.getD i [])).getD (p - i * hop_size) 0)
      * (hanning_window M window_size).getD (p - i * hop_size) 0
  else 0

/-- The phase difference of line 103, before unwrapping: the phase of the analysed bin
`z` minus the real part of `last_phase[k]`. -/
def deltaPhase (M : Numerics R C) (z last : C) : R :=
  M.arg z - M.real last

/-- Phase unwrapping (line 106). -/
def unwrapPhase (M : Numerics R C) (delta_phase : R) : R :=
  delta_phase - 2 * M.PI * M.round (delta_phase / (2 * M.PI))

/-- The constant `MAX_INT16` (line 11). -/
def MAX_INT16 : Int := 32767

/-- The function `std::clamp(v, lo, hi)`. -/
def clamp {α : Type} [LinearOrder α] (v lo hi : α) : α :=
  if v < lo then lo else if hi < v then hi else v

/-- The conversion `static_cast<int16_t>` of a `double`: truncation toward zero, with a
result only when the truncated value is a 16-bit signed integer. -/
def toInt16 {α : Type} [LinearOrderedField α] [FloorRing α] (x : α) : Option Int :=
  let t : Int := if 0 ≤ x then ⌊x⌋ else ⌈x⌉
  if -32768 ≤ t ∧ t ≤ 32767 then some t else none

/-- The 16-bit sample `writeAudioData` writes for one sample (line 131). -/
def encodeSample {α : Type} [LinearOrderedField α] [FloorRing α] (sample : α) : Option Int :=
  toInt16 (clamp sample (-1) 1 * (MAX_INT16 : α))

/-- The value `readAudioData` stores for one 16-bit sample (line 123). -/
def decodeSample {α : Type} [LinearOrderedField α] (sample : Int) : α :=
  (sample : α) / (MAX_INT16 : α)

/-- Function to write audio data (lines 129-134): the 16-bit samples written. -/
def writeAudioData {α : Type} [LinearOrderedField α] [FloorRing α] (data : List α) :
    Option (List Int) :=
  data.mapM encodeSample

/-- Function to read audio data (lines 119-126), from the 16-bit samples of the input. -/
def readAudioData {α : Type} [LinearOrderedField α] (input : List Int) : List α :=
  input.map decodeSample

end Program

/-! ## Loops -/

section Loops

variable {σ : Type}

theorem forLoopM_succ (n : Nat) (body : Nat → σ → Option σ) (s : σ) :
    forLoopM (n + 1) body s = (forLoopM n body s).bind (body n) := rfl

/-- Invariant rule for a counted loop whose body may fail: an invariant that every
iteration re-establishes, without failing, holds at the end, and the loop does not fail. -/
theorem forLoopM_invariant (P : Nat → σ → Prop) (body : Nat → σ → Option σ) (s₀ : σ)
    (n : Nat) (h₀ : P 0 s₀)
    (hstep : ∀ k, k < n → ∀ s, P k s → ∃ t, body k s = some t ∧ P (k + 1) t) :
    ∃ t, forLoopM n body s₀ = some t ∧ P n t := by
  induction n with
  | zero => exact ⟨s₀, rfl, h₀⟩
  | succ n ih =>
    obtain ⟨t, ht, hP⟩ := ih (fun k hk s hs => hstep k (Nat.lt_succ_of_lt hk) s hs)
    obtain ⟨u, hu, hQ⟩ := hstep n (Nat.lt_succ_self n) t hP
    exact ⟨u, by rw [forLoopM_succ, ht]; exact hu, hQ⟩

/-- Invariant rule for a counted loop with a total body. -/
theorem forLoop_invariant (P : Nat → σ → Prop) (body : Nat → σ → σ) (s₀ : σ)
    (n : Nat) (h₀ : P 0 s₀) (hstep : ∀ k, k < n → ∀ s, P k s → P (k + 1) (body k s)) :
    P n (forLoop n body s₀) := by
  induction n with
  | zero => exact h₀
  | succ n ih =>
    exact hstep n (Nat.lt_succ_self n) _
      (ih (fun k hk s hs => hstep k (Nat.lt_succ_of_lt hk) s hs))

/-- A loop whose first iteration fails, fails. -/
theorem forLoopM_fail_first (body : Nat → σ → Option σ) (s : σ) (n : Nat)
    (h : body 0 s = none) : forLoopM (n + 1) body s = none := by
  induction n with
  | zero => simp [forLoopM, h]
  | succ n ih => rw [forLoopM_succ, ih]; rfl

end Loops

section Structure

variable {R C : Type} [Field R] [Field C]

/-- Two lists of one length with the same entries are equal. -/
theorem list_eq_of_getD {α : Type} (d : α) (l₁ l₂ : List α) (hlen : l₁.length = l₂.length)
    (h : ∀ j, j < l₁.length → l₁.getD j d = l₂.getD j d) : l₁ = l₂ := by
  apply List.ext_getElem hlen
  intro j h₁ h₂
  have := h j h₁
  simpa [List.getD_eq_getElem?_getD, List.getElem?_eq_getElem h₁,
    List.getElem?_eq_getElem h₂] using this

theorem stftFrame_eq (M : Numerics R C) (signal window : List R) (window_size i : Nat)
    (hw : window_size ≤ window.length) (hi : i + window_size ≤ signal.length)
    (hL : signal.length < sizeModulus) :
    stftFrame M signal window window_size i
      = some (windowedFrame M signal window window_size i) := by
  obtain ⟨t, ht, hlen, hget⟩ := forLoopM_invariant
    (fun k (frame : List C) => frame.length = window_size ∧
      ∀ j, frame.getD j 0 =
        if j < k then M.ofReal (signal.getD (i + j) 0 * window.getD j 0) else 0)
    (fun j frame => do
      let s ← signal[(i + j) % sizeModulus]?
      let w ← window[j]?
      if j < frame.length then some (frame.set j (M.ofReal (s * w))) else none)
    (List.replicate window_size 0) window_size
    (by
      refine ⟨by simp, fun j => ?_⟩
      by_cases hj : j < window_size <;> simp [List.getD_eq_getElem?_getD, hj])
    (by
      intro k hk frame ⟨hlen, hget⟩
      have h1 : i + k < signal.length := by omega
      have h2 : k < window.length := by omega
      have hmod : (i + k) % sizeModulus = i + k := Nat.mod_eq_of_lt (by omega)
      refine ⟨frame.set k (M.ofReal (signal.getD (i + k) 0 * window.getD k 0)), ?_, ?_, ?_⟩
      · simp [hmod, List.getElem?_eq_getElem h1, List.getElem?_eq_getElem h2, hlen, hk,
          List.getD_eq_getElem?_getD]
      · simpa using hlen
      · intro j
        rcases Nat.lt_trichotomy j k with hjk | hjk | hjk
        · have : j < k + 1 := by omega
          have hne : k ≠ j := by omega
          simp only [List.getD_eq_getElem?_getD] at hget ⊢
          rw [List.getElem?_set_ne hne, hget j]
          simp [hjk, this, List.getD_eq_getElem?_getD]
        · subst hjk
          simp only [List.getD_eq_getElem?_getD]
          rw [List.getElem?_set_self (by omega)]
          simp [List.getD_eq_getElem?_getD]
        · have : ¬ j < k + 1 := by omega
          have h' : ¬ j < k := by omega
          have hne : k ≠ j := by omega
          simp only [List.getD_eq_getElem?_getD] at hget ⊢
          rw [List.getElem?_set_ne hne, hget j]
          simp [this, h'])
  unfold stftFrame
  rw [ht]
  congr 1
  apply list_eq_of_getD 0
  · simp [windowedFrame, hlen]
  · intro j hj
    rw [hget j]
    have hj' : j < window_size := by omega
    simp [windowedFrame, hj', List.getD_eq_getElem?_getD]

theorem framesLeft_step (L W H i : Nat) (hH : 1 ≤ H) (hi : i + W ≤ L) :
    framesLeft L W H i = framesLeft L W H (i + H) + 1 := by
  unfold framesLeft
  rw [if_pos hi]
  by_cases h2 : i + H + W ≤ L
  · rw [if_pos h2]
    have : L - (i + W) = (L - (i + H + W)) + H := by omega
    rw [this, Nat.add_div_right _ (by omega)]
  · rw [if_neg h2]
    have : (L - (i + W)) / H = 0 := Nat.div_eq_of_lt (by omega)
    omega

theorem maxVectorSize_lt : maxVectorSize < sizeModulus := by
  unfold maxVectorSize sizeModulus
  norm_num

theorem stftLoop_eq (M : Numerics R C) (signal window : List R) (window_size hop_size : Nat)
    (hH : 1 ≤ hop_size) (hw : window_size ≤ window.length)
    (hLH : signal.length + hop_size < sizeModulus) :
    ∀ (fuel i : Nat) (acc : List (List C)),
      i + window_size < sizeModulus →
      framesLeft signal.length window_size hop_size i < fuel →
      stftLoop M signal window window_size hop_size fuel i acc
        = some (acc ++ (List.range (framesLeft signal.length window_size hop_size i)).map
            fun m => fft M (windowedFrame M signal window window_size (i + m * hop_size))) := by
  intro fuel
  induction fuel with
  | zero => intro i acc _ h; omega
  | succ fuel ih =>
    intro i acc hiW h
    unfold stftLoop
    rw [Nat.mod_eq_of_lt hiW]
    by_cases hi : i + window_size ≤ signal.length
    · rw [if_pos hi, stftFrame_eq M signal window window_size i hw hi (by omega)]
      have hstep := framesLeft_step signal.length window_size hop_size i hH hi
      have hnext : (i + hop_size) % sizeModulus = i + hop_size :=
        Nat.mod_eq_of_lt (by omega)
      simp only
      rw [hnext, ih (i + hop_size) _ (by omega) (by omega), hstep, List.range_succ_eq_map,
        List.map_cons, List.map_map, List.append_assoc]
      congr 2
      simp only [List.singleton_append, Nat.zero_mul, Nat.add_zero, List.cons.injEq, true_and]
      apply List.map_congr_left
      intro m _
      simp only [Function.comp, Nat.succ_eq_add_one]
      congr 2
      ring
    · rw [if_neg hi]
      have : framesLeft signal.length window_size hop_size i = 0 := by
        unfold framesLeft
        rw [if_neg hi]
      simp [this]

/-- With a hop of zero the loop of `stft` never leaves a signal that holds one window:
whatever the fuel, it has not ended. -/
theorem stftLoop_hop_zero (M : Numerics R C) (signal window : List R) (window_size i : Nat)
    (hw : window_size ≤ window.length) (hi : i + window_size ≤ signal.length)
    (hL : signal.length < sizeModulus) :
    ∀ (fuel : Nat) (acc : List (List C)),
      stftLoop M signal window window_size 0 fuel i acc = none := by
  intro fuel
  induction fuel with
  | zero => intro acc; rfl
  | succ fuel ih =>
    intro acc
    unfold stftLoop
    rw [Nat.mod_eq_of_lt (by omega : i + window_size < sizeModulus), if_pos hi,
      stftFrame_eq M signal window window_size i hw hi hL, Nat.add_zero,
      Nat.mod_eq_of_lt (by omega : i < sizeModulus)]
    exact ih _

/-- The frames the loop of `stft` returns extend the ones it starts from. -/
theorem stftLoop_extends (M : Numerics R C) (signal window : List R)
    (window_size hop_size : Nat) :
    ∀ (fuel i : Nat) (acc r : List (List C)),
      stftLoop M signal window window_size hop_size fuel i acc = some r →
      acc.length ≤ r.length := by
  intro fuel
  induction fuel with
  | zero => intro i acc r h; cases h
  | succ fuel ih =>
    intro i acc r h
    unfold stftLoop at h
    split at h
    · split at h
      · cases h
      · have := ih _ _ _ h
        simp only [List.length_append, List.length_singleton] at this
        omega
    · simp only [Option.some.injEq] at h
      rw [h]

theorem length_hanning_window (M : Numerics R C) (N : Nat) :
    (hanning_window M N).length = N := by
  simp [hanning_window]

theorem framesLeft_zero (L W H : Nat) : framesLeft L W H 0 = frameCount L W H := by
  simp [framesLeft, frameCount]

theorem frameCount_le (L W H : Nat) : frameCount L W H ≤ L + 1 := by
  unfold frameCount
  split
  · have := Nat.div_le_self (L - W) H
    omega
  · omega

/-- The result of `stft` in closed form, for a hop of at least one sample, a window the
library accepts and sizes whose sums do not wrap. -/
theorem stft_eq (M : Numerics R C) (signal : List R) (window_size hop_size : Nat)
    (hH : 1 ≤ hop_size) (hW : window_size ≤ maxVectorSize)
    (hLH : signal.length + hop_size < sizeModulus) :
    stft M signal window_size hop_size
      = some ((List.range (frameCount signal.length window_size hop_size)).map fun m =>
          fft M (windowedFrame M signal (hanning_window M window_size) window_size
            (m * hop_size))) := by
  unfold stft
  rw [if_neg (Nat.not_lt.mpr hW)]
  have hm := maxVectorSize_lt
  have h := stftLoop_eq M signal (hanning_window M window_size) window_size hop_size hH
    (by rw [length_hanning_window]) hLH (signal.length + 2) 0 [] (by omega)
    (by
      rw [framesLeft_zero]
      have := frameCount_le signal.length window_size hop_size
      omega)
  simpa [framesLeft_zero] using h

/-- A signal shorter than the window gives no frame, whatever the hop. -/
theorem stft_short (M : Numerics R C) (signal : List R) (window_size hop_size : Nat)
    (hW : window_size ≤ maxVectorSize) (h : signal.length < window_size) :
    stft M signal window_size hop_size = some [] := by
  have hm := maxVectorSize_lt
  unfold stft
  rw [if_neg (Nat.not_lt.mpr hW)]
  unfold stftLoop
  rw [Nat.zero_add, Nat.mod_eq_of_lt (by omega), if_neg (by omega)]

/-- A signal that holds one window gives `stft` a first frame: what it returns, if it
returns, is not empty. -/
theorem stft_ne_nil (M : Numerics R C) (signal : List R) (window_size hop_size : Nat)
    (hW : window_size ≤ maxVectorSize) (h : window_size ≤ signal.length)
    (r : List (List C)) (hr : stft M signal window_size hop_size = some r) :
    1 ≤ r.length := by
  have hm := maxVectorSize_lt
  unfold stft at hr
  rw [if_neg (Nat.not_lt.mpr hW)] at hr
  unfold stftLoop at hr
  rw [Nat.zero_add, Nat.mod_eq_of_lt (by omega), if_pos h] at hr
  split at hr
  · cases hr
  · have := stftLoop_extends M signal _ window_size hop_size _ _ _ r hr
    simp only [List.nil_append, List.length_singleton] at this
    exact this

/-- With a hop of zero `stft` does not end on a signal that holds one window. -/
theorem stft_hop_zero (M : Numerics R C) (signal : List R) (window_size : Nat)
    (hW : window_size ≤ maxVectorSize) (h : window_size ≤ signal.length)
    (hL : signal.length < sizeModulus) : stft M signal window_size 0 = none := by
  unfold stft
  rw [if_neg (Nat.not_lt.mpr hW)]
  exact stftLoop_hop_zero M signal _ window_size 0 (by rw [length_hanning_window])
    (by omega) hL _ _

theorem getD_set {α : Type} (l : List α) (i j : Nat) (a d : α) :
    (l.set i a).getD j d = if i = j ∧ i < l.length then a else l.getD j d := by
  simp only [List.getD_eq_getElem?_getD, List.getElem?_set]
  by_cases h : i = j
  · subst h
    by_cases h' : i < l.length
    · simp [h']
    · simp [h', List.getElem?_eq_none (Nat.le_of_not_lt h')]
  · simp [h]

/-- The combine loop of `fft` in closed form, on a buffer that holds two halves. -/
theorem fftCombine_spec (M : Numerics R C) (N : Nat) (even odd x : List C)
    (hx : 2 * (N / 2) ≤ x.length) :
    (fftCombine M N even odd x).length = x.length ∧
    ∀ j, (fftCombine M N even odd x).getD j 0 =
      if j < N / 2 then
        even.getD j 0 + M.polar 1 (-2 * M.PI * (j : R) / (N : R)) * odd.getD j 0
      else if j < 2 * (N / 2) then
        even.getD (j - N / 2) 0
          - M.polar 1 (-2 * M.PI * ((j - N / 2 : Nat) : R) / (N : R)) * odd.getD (j - N / 2) 0
      else x.getD j 0 := by
  have key := forLoop_invariant
    (fun n (y : List C) => y.length = x.length ∧
      ∀ j, y.getD j 0 =
        if j < n then
          even.getD j 0 + M.polar 1 (-2 * M.PI * (j : R) / (N : R)) * odd.getD j 0
        else if N / 2 ≤ j ∧ j < N / 2 + n then
          even.getD (j - N / 2) 0
            - M.polar 1 (-2 * M.PI * ((j - N / 2 : Nat) : R) / (N : R)) * odd.getD (j - N / 2) 0
        else x.getD j 0)
    (fun k x =>
      let t := M.polar 1 (-2 * M.PI * (k : R) / (N : R)) * odd.getD k 0
      let x := x.set k (even.getD k 0 + t)
      x.set (k + N / 2) (even.getD k 0 - t)) x (N / 2)
    (by
      refine ⟨rfl, fun j => ?_⟩
      have h : ¬ (N / 2 ≤ j ∧ j < N / 2 + 0) := by omega
      simp only [Nat.not_lt_zero, if_false, h])
    (by
      intro k hk y ⟨hlen, hget⟩
      refine ⟨by simp [hlen], fun j => ?_⟩
      simp only [getD_set, List.length_set, hget j]
      by_cases h1 : k + N / 2 = j
      · subst h1
        have h2 : ¬ k + N / 2 < k + 1 := by omega
        have h3 : k + N / 2 < y.length := by omega
        have h4 : k + N / 2 - N / 2 = k := by omega
        have h5 : N / 2 ≤ k + N / 2 ∧ k + N / 2 < N / 2 + (k + 1) := by omega
        simp [h2, h3, h4, h5]
      · by_cases h6 : k = j
        · subst h6
          have h3 : k < y.length := by omega
          simp [h1, h3]
        · have e1 : (j < k + 1) = (j < k) := by
            apply propext; constructor <;> intro h <;> omega
          have e2 : (N / 2 ≤ j ∧ j < N / 2 + (k + 1)) = (N / 2 ≤ j ∧ j < N / 2 + k) := by
            apply propext; constructor <;> intro h <;> omega
          simp only [h1, h6, false_and, if_false, e1, e2])
  obtain ⟨hlen, hget⟩ := key
  refine ⟨hlen, fun j => ?_⟩
  have := hget j
  unfold fftCombine
  rw [this]
  by_cases h1 : j < N / 2
  · simp [h1]
  · by_cases h2 : j < 2 * (N / 2)
    · have h3 : N / 2 ≤ j ∧ j < N / 2 + N / 2 := by omega
      simp [h1, h2, h3]
    · have h3 : ¬ (N / 2 ≤ j ∧ j < N / 2 + N / 2) := by omega
      simp [h1, h2, h3]

theorem length_slice (x : List C) (start size stride : Nat) :
    (slice x start size stride).length = size := by
  simp [slice]

theorem length_fftAux (M : Numerics R C) (fuel : Nat) (x : List C) :
    (fftAux M fuel x).length = x.length := by
  induction fuel generalizing x with
  | zero => rfl
  | succ fuel ih =>
    unfold fftAux
    split
    · rfl
    · exact (fftCombine_spec M x.length _ _ x (by omega)).1

theorem length_fft (M : Numerics R C) (x : List C) : (fft M x).length = x.length :=
  length_fftAux M x.length x

end Structure

section Fourier

open Complex

theorem exists_exact : ∃ M : Numerics ℝ ℂ, M.Exact :=
  ⟨⟨Real.pi, Real.cos, fun x => (roundHalfAway x : ℝ),
      fun r θ => (r : ℂ) * Complex.exp ((θ : ℂ) * Complex.I),
      fun z => Complex.abs z, Complex.arg, Complex.re, starRingEnd ℂ, fun r => (r : ℂ)⟩,
    ⟨rfl, fun _ => rfl, fun _ => rfl, fun _ _ => rfl, fun _ => rfl, fun _ => rfl,
      fun _ => rfl, fun _ => rfl, fun _ => rfl⟩⟩

theorem sum_range_even_odd (h : ℕ) (f : ℕ → ℂ) :
    ∑ n in Finset.range (2 * h), f n
      = ∑ j in Finset.range h, f (2 * j) + ∑ j in Finset.range h, f (2 * j + 1) := by
  induction h with
  | zero => simp
  | succ h ih =>
    have : 2 * (h + 1) = 2 * h + 1 + 1 := by ring
    rw [this, Finset.sum_range_succ, Finset.sum_range_succ, ih, Finset.sum_range_succ,
      Finset.sum_range_succ]
    ring

theorem twiddle_even (h k j : ℕ) (hh : 0 < h) :
    exp (-2 * Real.pi * I * k * ((2 * j : ℕ) : ℂ) / ((2 * h : ℕ) : ℂ))
      = exp (-2 * Real.pi * I * k * j / h) := by
  congr 1
  have : (h : ℂ) ≠ 0 := by exact_mod_cast hh.ne'
  push_cast
  field_simp
  ring

theorem twiddle_odd (h k j : ℕ) (hh : 0 < h) :
    exp (-2 * Real.pi * I * k * ((2 * j + 1 : ℕ) : ℂ) / ((2 * h : ℕ) : ℂ))
      = exp (-2 * Real.pi * I * k / ((2 * h : ℕ) : ℂ)) * exp (-2 * Real.pi * I * k * j / h) := by
  rw [← Complex.exp_add]
  congr 1
  have : (h : ℂ) ≠ 0 := by exact_mod_cast hh.ne'
  push_cast
  field_simp
  ring

theorem twiddle_shift (h k j : ℕ) (hh : 0 < h) :
    exp (-2 * Real.pi * I * ((k + h : ℕ) : ℂ) * j / h) = exp (-2 * Real.pi * I * k * j / h) := by
  have : (h : ℂ) ≠ 0 := by exact_mod_cast hh.ne'
  have e : -2 * Real.pi * I * ((k + h : ℕ) : ℂ) * j / h
      = -2 * Real.pi * I * k * j / h + -(j * (2 * Real.pi * I)) := by
    push_cast
    field_simp
    ring
  rw [e, Complex.exp_add, Complex.exp_neg, Complex.exp_nat_mul_two_pi_mul_I]
  simp

theorem twiddle_half (h k : ℕ) (hh : 0 < h) :
    exp (-2 * Real.pi * I * ((k + h : ℕ) : ℂ) / ((2 * h : ℕ) : ℂ))
      = - exp (-2 * Real.pi * I * k / ((2 * h : ℕ) : ℂ)) := by
  have : (h : ℂ) ≠ 0 := by exact_mod_cast hh.ne'
  have e : -2 * Real.pi * I * ((k + h : ℕ) : ℂ) / ((2 * h : ℕ) : ℂ)
      = -2 * Real.pi * I * k / ((2 * h : ℕ) : ℂ) + -(Real.pi * I) := by
    push_cast
    field_simp
    ring
  rw [e, Complex.exp_add, Complex.exp_neg, Complex.exp_pi_mul_I]
  norm_num

theorem getD_slice (x : List ℂ) (start size stride j : ℕ) (hj : j < size) :
    (slice x start size stride).getD j 0 = x.getD (start + j * stride) 0 := by
  simp [slice, List.getD_eq_getElem?_getD, hj]

theorem polar_one (M : Numerics ℝ ℂ) (hM : M.Exact) (k N : ℕ) :
    M.polar 1 (-2 * M.PI * (k : ℝ) / (N : ℝ)) = exp (-2 * Real.pi * I * k / N) := by
  rw [hM.polar_eq, hM.PI_eq]
  push_cast
  rw [one_mul]
  congr 1
  ring

/-- The recursion of `fft` computes the discrete Fourier transform on `2 ^ m` points. -/
theorem fftAux_eq_dft (M : Numerics ℝ ℂ) (hM : M.Exact) :
    ∀ (m fuel : ℕ) (x : List ℂ), x.length = 2 ^ m → m ≤ fuel → ∀ k, k < 2 ^ m →
      (fftAux M fuel x).getD k 0
        = ∑ n in Finset.range (2 ^ m),
            x.getD n 0 * exp (-2 * Real.pi * I * k * n / ((2 ^ m : ℕ) : ℂ)) := by
  intro m
  induction m with
  | zero =>
    intro fuel x hx _ k hk
    have hk0 : k = 0 := by simpa using hk
    have : fftAux M fuel x = x := by
      cases fuel with
      | zero => rfl
      | succ f => unfold fftAux; rw [if_pos (by rw [hx]; simp)]
    subst hk0
    simp [this]
  | succ m ih =>
    intro fuel x hx hfuel k hk
    obtain ⟨f, rfl⟩ : ∃ f, fuel = f + 1 := ⟨fuel - 1, by omega⟩
    have hpos : 0 < 2 ^ m := Nat.pos_pow_of_pos m (by decide)
    have hN : x.length = 2 * 2 ^ m := by rw [hx, pow_succ]; ring
    have hhalf : x.length / 2 = 2 ^ m := by rw [hN]; simp
    have hgt : ¬ x.length ≤ 1 := by omega
    unfold fftAux
    rw [if_neg hgt]
    simp only
    rw [(fftCombine_spec M x.length _ _ x (by omega)).2 k, hhalf]
    have hE : ∀ k', k' < 2 ^ m →
        (fftAux M f (slice x 0 (2 ^ m) 2)).getD k' 0
          = ∑ j in Finset.range (2 ^ m),
              x.getD (2 * j) 0 * exp (-2 * Real.pi * I * k' * j / ((2 ^ m : ℕ) : ℂ)) := by
      intro k' hk'
      rw [ih f _ (length_slice _ _ _ _) (by omega) k' hk']
      apply Finset.sum_congr rfl
      intro j hj
      rw [getD_slice _ _ _ _ _ (Finset.mem_range.mp hj)]
      congr 2
      omega
    have hO : ∀ k', k' < 2 ^ m →
        (fftAux M f (slice x 1 (2 ^ m) 2)).getD k' 0
          = ∑ j in Finset.range (2 ^ m),
              x.getD (2 * j + 1) 0 * exp (-2 * Real.pi * I * k' * j / ((2 ^ m : ℕ) : ℂ)) := by
      intro k' hk'
      rw [ih f _ (length_slice _ _ _ _) (by omega) k' hk']
      apply Finset.sum_congr rfl
      intro j hj
      rw [getD_slice _ _ _ _ _ (Finset.mem_range.mp hj)]
      congr 2
      omega
    have hpow : (2 : ℕ) ^ (m + 1) = 2 * 2 ^ m := by rw [pow_succ]; ring
    rw [hpow, sum_range_even_odd, polar_one M hM, polar_one M hM, hN]
    by_cases h1 : k < 2 ^ m
    · rw [if_pos h1, hE k h1, hO k h1, Finset.mul_sum]
      congr 1
      · apply Finset.sum_congr rfl
        intro j _
        rw [twiddle_even _ _ _ hpos]
      · apply Finset.sum_congr rfl
        intro j _
        rw [twiddle_odd _ _ _ hpos]
        ring
    · have h2 : k < 2 * 2 ^ m := by omega
      obtain ⟨k', rfl⟩ : ∃ k', k = k' + 2 ^ m := ⟨k - 2 ^ m, by omega⟩
      have hk' : k' < 2 ^ m := by omega
      rw [if_neg h1, if_pos h2, Nat.add_sub_cancel, hE k' hk', hO k' hk', sub_eq_add_neg,
        ← neg_mul, Finset.mul_sum]
      congr 1
      · apply Finset.sum_congr rfl
        intro j _
        rw [twiddle_even _ _ _ hpos, twiddle_shift _ _ _ hpos]
      · apply Finset.sum_congr rfl
        intro j _
        rw [twiddle_odd _ _ _ hpos, twiddle_shift _ _ _ hpos, twiddle_half _ _ hpos]
        ring

/-- The model run on two points: the butterfly with twiddle 1. -/
theorem fft_two_points (M : Numerics ℝ ℂ) (hM : M.Exact) : fft M [5, 7] = [12, -2] := by
  simp [fft, fftAux, fftCombine, forLoop, slice, hM.polar_eq]
  norm_num

/-- The model run on three points, a length the source does not cater for: the combine
loop covers two elements and the last one stays as it was. -/
theorem fft_three_points (M : Numerics ℝ ℂ) (hM : M.Exact) :
    fft M [5, 7, 9] = [12, -2, 9] := by
  simp [fft, fftAux, fftCombine, forLoop, slice, hM.polar_eq]
  norm_num

/-- The model run on four points: the transform of a unit impulse at index 1. -/
theorem fft_four_points (M : Numerics ℝ ℂ) (hM : M.Exact) :
    fft M [0, 1, 0, 0] = [1, -I, -1, I] := by
  have h : cexp (-(2 * (Real.pi : ℂ)) / 4 * I) = -I := by
    have e : -(2 * (Real.pi : ℂ)) / 4 * I = (-(Real.pi / 2 : ℂ)) * I := by ring
    rw [e, Complex.exp_mul_I, Complex.cos_neg, Complex.sin_neg, Complex.cos_pi_div_two,
      Complex.sin_pi_div_two]
    simp
  simp [fft, fftAux, fftCombine, forLoop, slice, hM.polar_eq, hM.PI_eq, h]

theorem fft_getD_eq_dft (M : Numerics ℝ ℂ) (hM : M.Exact) (x : List ℂ) (m : ℕ)
    (hx : x.length = 2 ^ m) (k : ℕ) (hk : k < x.length) :
    (fft M x).getD k 0
      = ∑ n in Finset.range x.length,
          x.getD n 0 * exp (-2 * Real.pi * I * k * n / (x.length : ℂ)) := by
  have h := fftAux_eq_dft M hM m x.length x hx
    (by rw [hx]; exact (Nat.lt_two_pow m).le) k (by rwa [hx] at hk)
  unfold fft
  rw [h, hx]

/-- The sum of the `N`-th roots of unity `exp(2 pi i d k / N)` over `k < N` vanishes when
`N` does not divide `d`. -/
theorem sum_roots_eq_zero (N : ℕ) (d : ℤ) (hd : d ≠ 0) (hlt : |d| < N) :
    ∑ k in Finset.range N, exp (2 * Real.pi * I * d * k / N) = 0 := by
  have hN : (N : ℂ) ≠ 0 := by
    have : 0 < N := by
      have := abs_nonneg d
      omega
    exact_mod_cast this.ne'
  have hterm : ∀ k : ℕ, exp (2 * Real.pi * I * d * k / N)
      = exp (2 * Real.pi * I * d / N) ^ k := by
    intro k
    rw [← Complex.exp_nat_mul]
    congr 1
    ring
  have hne : exp (2 * Real.pi * I * d / N) ≠ 1 := by
    intro h
    rw [Complex.exp_eq_one_iff] at h
    obtain ⟨z, hz⟩ := h
    have hpi : (2 * Real.pi * I : ℂ) ≠ 0 := by
      simp [Real.pi_ne_zero, Complex.I_ne_zero]
    have h1 : (d : ℂ) = z * N := by
      field_simp at hz
      have h2 : (2 * Real.pi * I : ℂ) * d = (2 * Real.pi * I) * (z * N) := by
        rw [hz]; ring
      exact mul_left_cancel₀ hpi h2
    have h2 : d = z * N := by exact_mod_cast h1
    have h3 : |d| = |z| * N := by rw [h2, abs_mul]; simp
    rcases eq_or_ne z 0 with hz0 | hz0
    · rw [hz0] at h2; simp at h2; exact hd h2
    · have : 1 ≤ |z| := Int.one_le_abs hz0
      nlinarith
  have hpow : exp (2 * Real.pi * I * d / N) ^ N = 1 := by
    rw [← Complex.exp_nat_mul]
    have : (N : ℂ) * (2 * Real.pi * I * d / N) = d * (2 * Real.pi * I) := by
      field_simp
      ring
    rw [this, Complex.exp_int_mul_two_pi_mul_I]
  simp_rw [hterm]
  rw [geom_sum_eq hne, hpow]
  simp

/-- Orthogonality of the Fourier basis on `N` points. -/
theorem dft_orthogonal (N n n' : ℕ) (hn : n < N) (hn' : n' < N) :
    ∑ k in Finset.range N,
      exp (-2 * Real.pi * I * k * n' / N) * exp (2 * Real.pi * I * n * k / N)
      = if n' = n then (N : ℂ) else 0 := by
  have hterm : ∀ k : ℕ,
      exp (-2 * Real.pi * I * k * n' / N) * exp (2 * Real.pi * I * n * k / N)
        = exp (2 * Real.pi * I * ((n : ℤ) - (n' : ℤ) : ℤ) * k / N) := by
    intro k
    rw [← Complex.exp_add]
    congr 1
    push_cast
    ring
  simp_rw [hterm]
  by_cases h : n' = n
  · subst h
    simp
  · rw [if_neg h]
    apply sum_roots_eq_zero
    · omega
    · rw [abs_lt]
      constructor <;> omega

theorem length_ifft {R C : Type} [Field R] [Field C] (M : Numerics R C) (x : List C) :
    (ifft M x).length = x.length := by
  simp [ifft, length_fft]

theorem getD_map_of_lt {α β : Type} (f : α → β) (l : List α) (n : ℕ) (a : α) (b : β)
    (hn : n < l.length) : (l.map f).getD n b = f (l.getD n a) := by
  simp [List.getD_eq_getElem?_getD, List.getElem?_eq_getElem hn]

/-- The inverse FFT computes the inverse discrete Fourier transform on `2 ^ m` points. -/
theorem ifft_getD_eq (M : Numerics ℝ ℂ) (hM : M.Exact) (y : List ℂ) (m : ℕ)
    (hy : y.length = 2 ^ m) (n : ℕ) (hn : n < y.length) :
    (ifft M y).getD n 0
      = (∑ k in Finset.range y.length,
          y.getD k 0 * exp (2 * Real.pi * I * n * k / (y.length : ℂ))) / (y.length : ℂ) := by
  have hlen : (y.map M.conj).length = 2 ^ m := by simpa using hy
  have h1 := fft_getD_eq_dft M hM (y.map M.conj) m hlen n (by simpa using hn)
  unfold ifft
  simp only
  rw [getD_map_of_lt _ _ n 0 0 (by simpa [length_fft] using hn),
    getD_map_of_lt _ _ n 0 0 (by simpa [length_fft] using hn), h1, hM.conj_eq,
    hM.ofReal_eq]
  simp only [List.length_map, length_fft, map_sum, map_mul]
  congr 1
  · apply Finset.sum_congr rfl
    intro k hk
    rw [getD_map_of_lt _ _ k 0 0 (Finset.mem_range.mp hk), hM.conj_eq, Complex.conj_conj,
      ← Complex.exp_conj]
    congr 2
    simp only [map_div₀, map_mul, map_neg, Complex.conj_ofReal, Complex.conj_I,
      Complex.conj_natCast, map_ofNat]
    ring

/-- Round trip on values: the inverse FFT undoes the FFT on a buffer of `2 ^ m` elements. -/
theorem ifft_fft_eq (M : Numerics ℝ ℂ) (hM : M.Exact) (x : List ℂ) (m : ℕ)
    (hx : x.length = 2 ^ m) : ifft M (fft M x) = x := by
  have hpos : 0 < x.length := by rw [hx]; exact Nat.pos_pow_of_pos m (by decide)
  have hN : (x.length : ℂ) ≠ 0 := by exact_mod_cast hpos.ne'
  apply list_eq_of_getD 0
  · rw [length_ifft, length_fft]
  · intro n hn
    rw [length_ifft, length_fft] at hn
    rw [ifft_getD_eq M hM (fft M x) m (by rw [length_fft, hx]) n (by rwa [length_fft]),
      length_fft]
    have h1 : ∀ k ∈ Finset.range x.length,
        (fft M x).getD k 0 * exp (2 * Real.pi * I * n * k / (x.length : ℂ))
          = ∑ n' in Finset.range x.length, x.getD n' 0 *
              (exp (-2 * Real.pi * I * k * n' / (x.length : ℂ))
                * exp (2 * Real.pi * I * n * k / (x.length : ℂ))) := by
      intro k hk
      rw [fft_getD_eq_dft M hM x m hx k (Finset.mem_range.mp hk), Finset.sum_mul]
      apply Finset.sum_congr rfl
      intro n' _
      ring
    rw [Finset.sum_congr rfl h1, Finset.sum_comm]
    have h2 : ∀ n' ∈ Finset.range x.length,
        ∑ k in Finset.range x.length, x.getD n' 0 *
              (exp (-2 * Real.pi * I * k * n' / (x.length : ℂ))
                * exp (2 * Real.pi * I * n * k / (x.length : ℂ)))
          = if n' = n then x.getD n' 0 * (x.length : ℂ) else 0 := by
      intro n' hn'
      rw [← Finset.mul_sum, dft_orthogonal x.length n n' hn (Finset.mem_range.mp hn')]
      split <;> simp
    rw [Finset.sum_congr rfl h2, Finset.sum_ite_eq' (Finset.range x.length) n,
      if_pos (Finset.mem_range.mpr hn)]
    field_simp

end Fourier

section Synthesis

variable {R C : Type} [Field R] [Field C]

/-- Invariant rule with a consequence drawn at the end of the loop. -/
theorem forLoopM_invariant_post {σ : Type} (P : Nat → σ → Prop) (Q : σ → Prop)
    (body : Nat → σ → Option σ) (s₀ : σ) (n : Nat) (h₀ : P 0 s₀)
    (hstep : ∀ k, k < n → ∀ s, P k s → ∃ t, body k s = some t ∧ P (k + 1) t)
    (hpost : ∀ t, P n t → Q t) :
    ∃ t, forLoopM n body s₀ = some t ∧ Q t := by
  obtain ⟨t, ht, hP⟩ := forLoopM_invariant P body s₀ n h₀ hstep
  exact ⟨t, ht, hpost t hP⟩

/-- The inner loop of `istft` on a buffer that holds the whole frame at its offset: no
access fails, and the windowed real parts are added in place. -/
theorem overlapAdd_spec (M : Numerics R C) (frame : List C) (window : List R)
    (window_size hop_size i : Nat) (s : List R) (hf : window_size ≤ frame.length)
    (hw : window_size ≤ window.length) (hb : i * hop_size + window_size ≤ s.length)
    (hs : s.length ≤ sizeModulus) :
    ∃ t, overlapAdd M frame window window_size hop_size i s = some t ∧
      t.length = s.length ∧
      ∀ p, t.getD p 0 = s.getD p 0 +
        if i * hop_size ≤ p ∧ p < i * hop_size + window_size then
          M.real (frame.getD (p - i * hop_size) 0) * window.getD (p - i * hop_size) 0
        else 0 := by
  unfold overlapAdd
  refine forLoopM_invariant_post
    (fun j (t : List R) => t.length = s.length ∧
      ∀ p, t.getD p 0 = s.getD p 0 +
        if i * hop_size ≤ p ∧ p < i * hop_size + j then
          M.real (frame.getD (p - i * hop_size) 0) * window.getD (p - i * hop_size) 0
        else 0) _ _ _ _ ?_ ?_ (fun t h => h)
  · refine ⟨rfl, fun p => ?_⟩
    have : ¬ (i * hop_size ≤ p ∧ p < i * hop_size + 0) := by omega
    simp [this]
  · intro j hj t ⟨ht, htget⟩
    have h1 : j < frame.length := by omega
    have h2 : j < window.length := by omega
    have h3 : i * hop_size + j < t.length := by omega
    have hmod : (i * hop_size + j) % sizeModulus = i * hop_size + j :=
      Nat.mod_eq_of_lt (by omega)
    simp only [hmod, List.getElem?_eq_getElem h1, List.getElem?_eq_getElem h2,
      List.getElem?_eq_getElem h3, Option.bind_eq_bind, Option.some_bind]
    refine ⟨_, rfl, by simp [ht], fun p => ?_⟩
    rw [getD_set, htget p]
    by_cases hp : i * hop_size + j = p
    · subst hp
      have e1 : ¬ (i * hop_size + j < i * hop_size + j) := by omega
      have e2 : i * hop_size + j < i * hop_size + (j + 1) := by omega
      have e3 : i * hop_size + j - i * hop_size = j := by omega
      have e4 := htget (i * hop_size + j)
      simp only [e1, and_false, if_false, add_zero] at e4
      simp only [h3, and_self, if_true, e2, Nat.le_add_right, e3]
      rw [← e4, List.getD_eq_getElem _ _ h1, List.getD_eq_getElem _ _ h2,
        List.getD_eq_getElem _ _ h3]
    · have e : (i * hop_size ≤ p ∧ p < i * hop_size + (j + 1))
          = (i * hop_size ≤ p ∧ p < i * hop_size + j) := by
        apply propext; constructor <;> intro h <;> omega
      simp only [hp, false_and, if_false, e]

/-- The inner loop of `istft` faults at once when the offset of the frame, as `size_t`
computes it, is not inside the buffer. -/
theorem overlapAdd_fault (M : Numerics R C) (frame : List C) (window : List R)
    (W hop_size i : Nat) (s : List R) (h : s.length ≤ (i * hop_size) % sizeModulus) :
    overlapAdd M frame window (W + 1) hop_size i s = none := by
  unfold overlapAdd
  apply forLoopM_fail_first
  have hnone : s[(i * hop_size + 0) % sizeModulus]? = none :=
    List.getElem?_eq_none (by rw [Nat.add_zero]; exact h)
  simp only [hnone, Option.bind_eq_bind, Option.none_bind]
  cases frame[0]? with
  | none => rfl
  | some z =>
    cases window[0]? with
    | none => rfl
    | some w => rfl

theorem istft_spec (M : Numerics R C) (stft_frames : List (List C))
    (window_size hop_size : Nat) (hlen : ∀ f, f ∈ stft_frames → f.length = window_size)
    (hsize : stft_frames.length * hop_size + window_size ≤ maxVectorSize) :
    ∃ out, istft M stft_frames window_size hop_size = some out ∧
      out.length = stft_frames.length * hop_size + window_size ∧
      ∀ p, out.getD p 0 = ∑ i in Finset.range stft_frames.length,
        overlapTerm M stft_frames window_size hop_size i p := by
  have hm := maxVectorSize_lt
  have hmod : (stft_frames.length * hop_size + window_size) % sizeModulus
      = stft_frames.length * hop_size + window_size := Nat.mod_eq_of_lt (by omega)
  unfold istft
  simp only
  rw [hmod, if_neg (Nat.not_lt.mpr hsize), if_neg (by omega)]
  refine forLoopM_invariant_post
    (fun i (s : List R) => s.length = stft_frames.length * hop_size + window_size ∧
      ∀ p, s.getD p 0 = ∑ i' in Finset.range i,
        overlapTerm M stft_frames window_size hop_size i' p) _ _ _ _ ?_ ?_ (fun t h => h)
  · refine ⟨by simp, fun p => ?_⟩
    simp only [List.getD_eq_getElem?_getD, List.getElem?_replicate]
    split <;> simp
  · intro i hi s ⟨hs, hget⟩
    have hfr : stft_frames[i]? = some (stft_frames.getD i []) := by
      simp [List.getD_eq_getElem?_getD, List.getElem?_eq_getElem hi]
    have hfl : (stft_frames.getD i []).length = window_size := by
      apply hlen
      simp [List.getD_eq_getElem?_getD, List.getElem?_eq_getElem hi]
    have hbound : i * hop_size + window_size ≤ stft_frames.length * hop_size + window_size := by
      have := Nat.mul_le_mul_right hop_size (Nat.le_of_lt hi)
      omega
    simp only [hfr, Option.bind_eq_bind, Option.some_bind]
    obtain ⟨t, ht, htlen, htget⟩ := overlapAdd_spec M (ifft M (stft_frames.getD i []))
      (hanning_window M window_size) window_size hop_size i s
      (by rw [length_ifft, hfl]) (by rw [length_hanning_window]) (by omega) (by omega)
    refine ⟨t, ht, by rw [htlen, hs], fun p => ?_⟩
    rw [htget p, hget p, Finset.sum_range_succ]
    rfl

theorem fftAux_fuel (M : Numerics R C) :
    ∀ (f₁ f₂ : Nat) (x : List C), x.length ≤ f₁ → x.length ≤ f₂ →
      fftAux M f₁ x = fftAux M f₂ x := by
  intro f₁
  induction f₁ with
  | zero =>
    intro f₂ x h₁ _
    cases f₂ with
    | zero => rfl
    | succ f₂ => unfold fftAux; rw [if_pos (by omega)]
  | succ f₁ ih =>
    intro f₂ x h₁ h₂
    by_cases hx : x.length ≤ 1
    · cases f₂ with
      | zero => unfold fftAux; rw [if_pos hx]
      | succ f₂ => unfold fftAux; rw [if_pos hx, if_pos hx]
    · obtain ⟨g, rfl⟩ : ∃ g, f₂ = g + 1 := ⟨f₂ - 1, by omega⟩
      unfold fftAux
      rw [if_neg hx, if_neg hx]
      simp only
      rw [ih g (slice x 0 (x.length / 2) 2) (by rw [length_slice]; omega)
          (by rw [length_slice]; omega),
        ih g (slice x 1 (x.length / 2) 2) (by rw [length_slice]; omega)
          (by rw [length_slice]; omega)]

/-- More fuel than the length of the buffer does not change the result of `fft`. -/
theorem fft_fuel (M : Numerics R C) (fuel : Nat) (x : List C) (h : x.length ≤ fuel) :
    fftAux M fuel x = fft M x :=
  fftAux_fuel M fuel x.length x h (Nat.le_refl _)

/-- The first iteration of the bin loop, from the state `phase_vocoder` starts in: the
store of line 110 finds `processed_frames[0]` empty. -/
theorem vocoderBin_first_fault (M : Numerics R C) (W hop_size : Nat) (time_stretch : R)
    (frame : List C) (frames : List (List C)) :
    vocoderBin M (W + 1) hop_size time_stretch (frame :: frames) 0 0
      { last_phase := List.replicate (W + 1) 0
        new_phase := List.replicate (W + 1) 0
        processed_frames := List.replicate (frame :: frames).length [] } = none := by
  unfold vocoderBin
  cases frame with
  | nil => simp
  | cons z zs => simp [List.replicate]

/-- Frame 0 of the processing loop is not completed: its first bin faults. -/
theorem vocoderFrame_first_fault (M : Numerics R C) (W hop_size : Nat) (time_stretch : R)
    (frame : List C) (frames : List (List C)) :
    vocoderFrame M (W + 1) hop_size time_stretch (frame :: frames) 0
      { last_phase := List.replicate (W + 1) 0
        new_phase := List.replicate (W + 1) 0
        processed_frames := List.replicate (frame :: frames).length [] } = none := by
  unfold vocoderFrame
  rw [forLoopM_fail_first _ _ W
    (vocoderBin_first_fault M W hop_size time_stretch frame frames)]
  rfl

/-- The processing loop of `phase_vocoder` faults as soon as there is one analysed frame
and one bin: `processed_frames[0]` has no element to assign. -/
theorem processFrames_cons (M : Numerics R C) (W hop_size : Nat) (time_stretch : R)
    (frame : List C) (frames : List (List C)) :
    processFrames M (W + 1) hop_size time_stretch (frame :: frames) = none := by
  have hloop := forLoopM_fail_first _ _ frames.length
    (vocoderFrame_first_fault M W hop_size time_stretch frame frames)
  unfold processFrames
  simp only [List.length_cons] at hloop ⊢
  rw [hloop]
  rfl

theorem processFrames_nil (M : Numerics R C) (window_size hop_size : Nat) (time_stretch : R) :
    processFrames M window_size hop_size time_stretch [] = some [] := rfl

theorem window_le_maxVectorSize : 1024 ≤ maxVectorSize := by
  unfold maxVectorSize
  norm_num

theorem istft_nil (M : Numerics R C) (window_size hop_size : Nat)
    (hW : window_size ≤ maxVectorSize) :
    istft M [] window_size hop_size = some (List.replicate window_size 0) := by
  have hm := maxVectorSize_lt
  have hmod : (([] : List (List C)).length * hop_size + window_size) % sizeModulus
      = window_size := by
    rw [List.length_nil, Nat.zero_mul, Nat.zero_add]
    exact Nat.mod_eq_of_lt (by omega)
  unfold istft
  simp only
  rw [hmod, if_neg (Nat.not_lt.mpr hW), if_neg (Nat.not_lt.mpr hW)]
  rfl

/-- An input shorter than one window: no frame, and 1024 zero samples come back. -/
theorem phase_vocoder_short (M : Numerics R C) (signal : List R) (time_stretch : R)
    (sample_rate : Int) (h : signal.length < 1024) :
    phase_vocoder M signal time_stretch sample_rate = some (List.replicate 1024 0) := by
  unfold phase_vocoder
  simp only [Nat.reduceDiv]
  rw [stft_short M signal 1024 256 window_le_maxVectorSize h]
  simp only [Option.bind_eq_bind, Option.some_bind, processFrames_nil]
  exact istft_nil M 1024 256 window_le_maxVectorSize

/-- An input of at least one window: the run faults at the first write of a bin, if not
before. -/
theorem phase_vocoder_long (M : Numerics R C) (signal : List R) (time_stretch : R)
    (sample_rate : Int) (h : 1024 ≤ signal.length) :
    phase_vocoder M signal time_stretch sample_rate = none := by
  unfold phase_vocoder
  simp only [Nat.reduceDiv]
  cases hr : stft M signal 1024 256 with
  | none => rfl
  | some r =>
    have hlen := stft_ne_nil M signal 1024 256 window_le_maxVectorSize h r hr
    cases r with
    | nil => simp at hlen
    | cons frame frames =>
      simp only [Option.bind_eq_bind, Option.some_bind]
      rw [processFrames_cons M 1023 256 time_stretch]
      rfl

theorem getElem?_eq_some_getD {α : Type} (l : List α) (n : Nat) (d : α) (h : n < l.length) :
    l[n]? = some (l.getD n d) := by
  simp [List.getD_eq_getElem?_getD, List.getElem?_eq_getElem h]

/-- Over exact arithmetic a value built by `std::polar` from a magnitude has that
magnitude, whatever the angle. -/
theorem abs_emitBin (M : Numerics ℝ ℂ) (hM : M.Exact) (z new : ℂ) :
    M.abs (emitBin M z new) = M.abs z := by
  unfold emitBin
  simp only [hM.abs_eq, hM.polar_eq, map_mul, Complex.abs_ofReal, Complex.abs_exp_ofReal_mul_I,
    mul_one, abs_eq_self]
  exact (AbsoluteValue.nonneg _ z)

end Synthesis

/-! ## The claims -/

section Claims

open Complex

/-- C1: over exact complex arithmetic, `fft` of a buffer whose length N is a power of two
is its discrete Fourier transform: for every `k < N`,
`fft(x)[k] = sum over n < N of x[n] * exp(-2*pi*i*k*n/N)`. -/
theorem fft_is_dft (M : Numerics ℝ ℂ) (hM : M.Exact) (x : List ℂ) (m : ℕ)
    (hx : x.length = 2 ^ m) (k : ℕ) (hk : k < x.length) :
    (fft M x)[k]? = some (∑ n in Finset.range x.length,
      x.getD n 0 * exp (-2 * Real.pi * I * k * n / (x.length : ℂ))) := by
  rw [getElem?_eq_some_getD (fft M x) k 0 (by rwa [length_fft]),
    fft_getD_eq_dft M hM x m hx k hk]

/-- C1 at a concrete input, over exact arithmetic. -/
theorem fft_is_dft_witness :
    ∃ M : Numerics ℝ ℂ, M.Exact ∧ ([5, 7] : List ℂ).length = 2 ^ 1 ∧
      1 < ([5, 7] : List ℂ).length ∧
      (fft M [5, 7])[1]? = some (∑ n in Finset.range ([5, 7] : List ℂ).length,
        ([5, 7] : List ℂ).getD n 0
          * exp (-2 * Real.pi * I * (1 : ℕ) * n / (([5, 7] : List ℂ).length : ℂ))) := by
  obtain ⟨M, hM⟩ := exists_exact
  exact ⟨M, hM, rfl, by decide, fft_is_dft M hM [5, 7] 1 rfl 1 (by decide)⟩

/-- C2: over exact complex arithmetic, for a buffer whose length is a power of two,
`ifft(fft(x)) = x` element for element, `ifft` being: conjugate, `fft`, conjugate,
divide every element by N. -/
theorem ifft_fft_roundtrip (M : Numerics ℝ ℂ) (hM : M.Exact) (x : List ℂ) (m : ℕ)
    (hx : x.length = 2 ^ m) : ifft M (fft M x) = x :=
  ifft_fft_eq M hM x m hx

/-- C2 at a concrete input, over exact arithmetic. -/
theorem ifft_fft_roundtrip_witness :
    ∃ M : Numerics ℝ ℂ, M.Exact ∧ ([5, 7, 1, I] : List ℂ).length = 2 ^ 2 ∧
      ifft M (fft M [5, 7, 1, I]) = [5, 7, 1, I] := by
  obtain ⟨M, hM⟩ := exists_exact
  exact ⟨M, hM, rfl, ifft_fft_roundtrip M hM [5, 7, 1, I] 2 rfl⟩

/-- C5, as stated, fails: with two frames of three elements and the hop `2^63` the
length `2 * 2^63 + 3` of line 73 wraps to 3, and frame 1 is written from index `2^63`,
outside that buffer: no signal is returned, where the claim gives `F*H + W` samples with
every write inside the buffer. -/
theorem istft_wrap_counterexample :
    ∃ M : Numerics ℝ ℂ, M.Exact ∧ 2 ≤ 3 ∧
      (∀ f, f ∈ ([[1, 2, 3], [4, 5, 6]] : List (List ℂ)) → f.length = 3) ∧
      (([[1, 2, 3], [4, 5, 6]] : List (List ℂ)).length * 2 ^ 63 + 3) % sizeModulus = 3 ∧
      istft M [[1, 2, 3], [4, 5, 6]] 3 (2 ^ 63) = none ∧
      ¬ ∃ out, istft M [[1, 2, 3], [4, 5, 6]] 3 (2 ^ 63) = some out ∧
        out.length = ([[1, 2, 3], [4, 5, 6]] : List (List ℂ)).length * 2 ^ 63 + 3 := by
  obtain ⟨M, hM⟩ := exists_exact
  have hlen : ∀ f, f ∈ ([[1, 2, 3], [4, 5, 6]] : List (List ℂ)) → f.length = 3 := by
    intro f hf
    simp only [List.mem_cons, List.mem_singleton, List.not_mem_nil, or_false] at hf
    rcases hf with rfl | rfl <;> rfl
  have hsize : (([[1, 2, 3], [4, 5, 6]] : List (List ℂ)).length * 2 ^ 63 + 3) % sizeModulus
      = 3 := by
    unfold sizeModulus
    norm_num
  suffices h : istft M [[1, 2, 3], [4, 5, 6]] 3 (2 ^ 63) = none by
    refine ⟨M, hM, by decide, hlen, hsize, h, ?_⟩
    rintro ⟨out, hout, _⟩
    rw [h] at hout
    cases hout
  obtain ⟨t, ht, htlen, _⟩ := overlapAdd_spec M (ifft M [1, 2, 3]) (hanning_window M 3)
    3 (2 ^ 63) 0 (List.replicate 3 (0 : ℝ))
    (by rw [length_ifft]; decide) (by rw [length_hanning_window])
    (by rw [List.length_replicate]; omega)
    (by rw [List.length_replicate]; unfold sizeModulus; norm_num)
  have hfault : overlapAdd M (ifft M [4, 5, 6]) (hanning_window M 3) 3 (2 ^ 63) 1 t = none :=
    overlapAdd_fault M _ _ 2 (2 ^ 63) 1 t (by
      rw [htlen, List.length_replicate]
      unfold sizeModulus
      norm_num)
  unfold istft
  simp only
  rw [hsize, if_neg (by unfold maxVectorSize; norm_num),
    if_neg (by unfold maxVectorSize; norm_num)]
  simp only [List.length_cons, List.length_nil, Nat.zero_add, Nat.reduceAdd]
  rw [forLoopM_succ, forLoopM_succ]
  simp only [forLoopM, Option.some_bind, List.getElem?_cons_zero, List.getElem?_cons_succ,
    Option.bind_eq_bind, ht, hfault]

/-- C5, amended: for F frames each of length W (W ≥ 2) and a hop size H with
`F*H + W ≤ 2^60 - 1` (the buffer of line 73 is one a `std::vector<double>` can hold, and
no size wraps), `istft` returns, memory permitting, a signal of length exactly `F*H + W` whose sample n is the
sum, over the frames `i < F` with `i*H ≤ n < i*H + W`, of
`Re(ifft(frame_i)[n - i*H]) * hanning_window(W)[n - i*H]` (0 when no frame covers n);
every index `i*H + j` written lies inside the output buffer. -/
theorem istft_overlap_add_bounded (M : Numerics ℝ ℂ) (hM : M.Exact)
    (stft_frames : List (List ℂ)) (window_size hop_size : Nat) (hW : 2 ≤ window_size)
    (hlen : ∀ f, f ∈ stft_frames → f.length = window_size)
    (hsize : stft_frames.length * hop_size + window_size ≤ maxVectorSize) :
    ∃ out, istft M stft_frames window_size hop_size = some out ∧
      out.length = stft_frames.length * hop_size + window_size ∧
      (∀ n, n < out.length → out[n]? = some
        (∑ i in (Finset.range stft_frames.length).filter
            (fun i => i * hop_size ≤ n ∧ n < i * hop_size + window_size),
          ((ifft M (stft_frames.getD i [])).getD (n - i * hop_size) 0).re
            * (hanning_window M window_size).getD (n - i * hop_size) 0)) ∧
      ∀ i j, i < stft_frames.length → j < window_size → i * hop_size + j < out.length := by
  obtain ⟨out, hout, hlength, hget⟩ :=
    istft_spec M stft_frames window_size hop_size hlen hsize
  refine ⟨out, hout, hlength, ?_, ?_⟩
  · intro n hn
    rw [getElem?_eq_some_getD out n 0 hn, hget n, Finset.sum_filter]
    congr 1
    apply Finset.sum_congr rfl
    intro i _
    unfold overlapTerm
    rw [hM.real_eq]
  · intro i j hi hj
    rw [hlength]
    have := Nat.mul_le_mul_right hop_size (Nat.le_of_lt hi)
    omega

/-- C5 (amended) at two frames of four elements, hop 2. -/
theorem istft_overlap_add_bounded_witness :
    ∃ M : Numerics ℝ ℂ, M.Exact ∧ 2 ≤ 4 ∧
      (∀ f, f ∈ ([[1, 2, 3, 4], [I, 0, 5, 7]] : List (List ℂ)) → f.length = 4) ∧
      ([[1, 2, 3, 4], [I, 0, 5, 7]] : List (List ℂ)).length * 2 + 4 ≤ maxVectorSize ∧
      ∃ out, istft M [[1, 2, 3, 4], [I, 0, 5, 7]] 4 2 = some out ∧
        out.length = ([[1, 2, 3, 4], [I, 0, 5, 7]] : List (List ℂ)).length * 2 + 4 ∧
        (∀ n, n < out.length → out[n]? = some
          (∑ i in (Finset.range ([[1, 2, 3, 4], [I, 0, 5, 7]] : List (List ℂ)).length).filter
              (fun i => i * 2 ≤ n ∧ n < i * 2 + 4),
            ((ifft M (([[1, 2, 3, 4], [I, 0, 5, 7]] : List (List ℂ)).getD i [])).getD
                (n - i * 2) 0).re
              * (hanning_window M 4).getD (n - i * 2) 0)) ∧
        ∀ i j, i < ([[1, 2, 3, 4], [I, 0, 5, 7]] : List (List ℂ)).length → j < 4 →
          i * 2 + j < out.length := by
  obtain ⟨M, hM⟩ := exists_exact
  have hlen : ∀ f, f ∈ ([[1, 2, 3, 4], [I, 0, 5, 7]] : List (List ℂ)) → f.length = 4 := by
    intro f hf
    simp only [List.mem_cons, List.mem_singleton, List.not_mem_nil, or_false] at hf
    rcases hf with rfl | rfl <;> rfl
  have hsize : ([[1, 2, 3, 4], [I, 0, 5, 7]] : List (List ℂ)).length * 2 + 4
      ≤ maxVectorSize := by
    unfold maxVectorSize
    norm_num
  exact ⟨M, hM, by decide, hlen, hsize,
    istft_overlap_add_bounded M hM [[1, 2, 3, 4], [I, 0, 5, 7]] 4 2 (by decide) hlen hsize⟩

/-- C6 (the code departs from it): the processed sequence is built as empty frames
(line 93), so with one analysed frame or more the first assignment
`processed_frames[0][0]` (line 110) already lies outside its frame, for every stretch
factor: the processing loop has no defined result. -/
theorem processed_frames_unallocated (M : Numerics ℝ ℂ) (time_stretch : ℝ) (frame : List ℂ)
    (frames : List (List ℂ)) :
    processFrames M 1024 256 time_stretch (frame :: frames) = none :=
  processFrames_cons M 1023 256 time_stretch frame frames

/-- C7 (the code departs from it): on a signal of 2048 samples with stretch factor 2.0
`phase_vocoder` returns no signal, the first bin assignment being out of bounds. -/
theorem stretch_two_no_result (M : Numerics ℝ ℂ) (sample_rate : ℤ) :
    phase_vocoder M (List.replicate 2048 1) 2 sample_rate = none :=
  phase_vocoder_long M _ 2 sample_rate (by rw [List.length_replicate]; omega)

/-- C8 (the code departs from it): on a sine wave
`x[n] = A * sin(2*pi*k0*n/1024 + phi)` of at least 1024 samples `phase_vocoder`, at stretch
factor 1.0, returns no signal, the first bin assignment being out of bounds. -/
theorem sine_no_result (M : Numerics ℝ ℂ) (A φ : ℝ) (k0 L : ℕ) (sample_rate : ℤ)
    (hL : 1024 ≤ L) :
    phase_vocoder M
      ((List.range L).map
        (fun (n : ℕ) => A * Real.sin (2 * Real.pi * (k0 : ℝ) * (n : ℝ) / 1024 + φ)))
      1 sample_rate = none :=
  phase_vocoder_long M _ 1 sample_rate
    (by rw [List.length_map, List.length_range]; exact hL)

/-- C8 (the code departs from it) at 2048 samples of the sine at the centre of bin 8. -/
theorem sine_no_result_witness :
    ∃ M : Numerics ℝ ℂ, M.Exact ∧ 1024 ≤ 2048 ∧
      phase_vocoder M
        ((List.range 2048).map
          (fun (n : ℕ) => (1 : ℝ) * Real.sin (2 * Real.pi * ((8 : ℕ) : ℝ) * (n : ℝ) / 1024 + 0)))
        1 44100 = none := by
  obtain ⟨M, hM⟩ := exists_exact
  exact ⟨M, hM, by decide, sine_no_result M 1 0 8 2048 44100 (by decide)⟩

/-- C9 (the code departs from it): on 1024 zero samples `phase_vocoder` returns no signal,
for every stretch factor and sample rate, the first bin assignment being out of bounds. -/
theorem silence_no_result (M : Numerics ℝ ℂ) (time_stretch : ℝ) (sample_rate : ℤ) :
    phase_vocoder M (List.replicate 1024 0) time_stretch sample_rate = none :=
  phase_vocoder_long M _ time_stretch sample_rate (by rw [List.length_replicate])

/-- C10 (the code departs from it): on a signal of at least 1024 samples `stft` returns
one frame or more, and in the state `phase_vocoder` then starts its loop in, the
iteration for frame 0, bin 0 does not store the emitted value: `processed_frames[0]` is
empty and the assignment of line 110 is out of bounds, for every stretch factor. No
`processed_frames[i][k]` comes to hold a value. -/
theorem emitted_value_not_stored (M : Numerics ℝ ℂ) (signal : List ℝ) (time_stretch : ℝ)
    (h : 1024 ≤ signal.length) (hL : signal.length + 256 < sizeModulus) :
    ∃ frames, stft M signal 1024 256 = some frames ∧ 1 ≤ frames.length ∧
      vocoderBin M 1024 256 time_stretch frames 0 0
        { last_phase := List.replicate 1024 0
          new_phase := List.replicate 1024 0
          processed_frames := List.replicate frames.length [] } = none := by
  have hs := stft_eq M signal 1024 256 (by decide) window_le_maxVectorSize hL
  have hlen := stft_ne_nil M signal 1024 256 window_le_maxVectorSize h _ hs
  refine ⟨_, hs, hlen, ?_⟩
  generalize (List.range (frameCount signal.length 1024 256)).map
    (fun m => fft M (windowedFrame M signal (hanning_window M 1024) 1024 (m * 256)))
    = frames at hlen ⊢
  cases frames with
  | nil => simp at hlen
  | cons frame frames => exact vocoderBin_first_fault M 1023 256 time_stretch frame frames

/-- C10 (the code departs from it) at 1024 samples equal to 1, stretch factor 1.5. -/
theorem emitted_value_not_stored_witness :
    ∃ M : Numerics ℝ ℂ, M.Exact ∧ 1024 ≤ (List.replicate 1024 (1 : ℝ)).length ∧
      (List.replicate 1024 (1 : ℝ)).length + 256 < sizeModulus ∧
      ∃ frames, stft M (List.replicate 1024 (1 : ℝ)) 1024 256 = some frames ∧
        1 ≤ frames.length ∧
        vocoderBin M 1024 256 (3 / 2) frames 0 0
          { last_phase := List.replicate 1024 0
            new_phase := List.replicate 1024 0
            processed_frames := List.replicate frames.length [] } = none := by
  obtain ⟨M, hM⟩ := exists_exact
  have h : 1024 ≤ (List.replicate 1024 (1 : ℝ)).length := by
    rw [List.length_replicate]
  have hL : (List.replicate 1024 (1 : ℝ)).length + 256 < sizeModulus := by
    rw [List.length_replicate]
    unfold sizeModulus
    norm_num
  exact ⟨M, hM, h, hL, emitted_value_not_stored M _ (3 / 2) h hL⟩

end Claims

section Window

variable {R C : Type} [Field R] [Field C]

theorem getElem?_hanning_window (M : Numerics R C) (N n : Nat) (hn : n < N) :
    (hanning_window M N)[n]?
      = some (0.5 * (1 - M.cos (2 * M.PI * (n : R) / ((N - 1 : Nat) : R)))) := by
  simp [hanning_window, List.getElem?_map, List.getElem?_range hn]

/-- The window over exact arithmetic, with `N - 1` taken in the reals. -/
theorem hanning_window_exact (M : Numerics ℝ ℂ) (hM : M.Exact) (N n : Nat) (hN : 1 ≤ N)
    (hn : n < N) :
    (hanning_window M N)[n]?
      = some (0.5 * (1 - Real.cos (2 * Real.pi * (n : ℝ) / ((N : ℝ) - 1)))) := by
  rw [getElem?_hanning_window M N n hn, hM.cos_eq, hM.PI_eq, Nat.cast_sub hN, Nat.cast_one]

end Window

section Unwrap

/-- The integer `std::round` picks is within one half of its argument, the half being
reached from above only for a negative argument and from below only otherwise. -/
theorem roundHalfAway_bounds (x : ℝ) :
    (0 ≤ x → x - 1 / 2 < (roundHalfAway x : ℝ) ∧ (roundHalfAway x : ℝ) ≤ x + 1 / 2) ∧
    (x < 0 → x - 1 / 2 ≤ (roundHalfAway x : ℝ) ∧ (roundHalfAway x : ℝ) < x + 1 / 2) := by
  unfold roundHalfAway
  constructor
  · intro h
    rw [if_pos h]
    have h1 := Int.floor_le (x + 1 / 2)
    have h2 := Int.lt_floor_add_one (x + 1 / 2)
    constructor <;> linarith
  · intro h
    rw [if_neg (not_le.mpr h)]
    have h1 := Int.le_ceil (x - 1 / 2)
    have h2 := Int.ceil_lt_add_one (x - 1 / 2)
    constructor <;> linarith

theorem unwrapPhase_exact (M : Numerics ℝ ℂ) (hM : M.Exact) (d : ℝ) :
    unwrapPhase M d = d - 2 * Real.pi * (roundHalfAway (d / (2 * Real.pi)) : ℝ) := by
  unfold unwrapPhase
  rw [hM.PI_eq, hM.round_eq]

/-- The unwrapped value lies in `[-pi, pi)` for a non-negative argument and in
`(-pi, pi]` for a negative one. -/
theorem unwrapPhase_range (M : Numerics ℝ ℂ) (hM : M.Exact) (d : ℝ) :
    (0 ≤ d → -Real.pi ≤ unwrapPhase M d ∧ unwrapPhase M d < Real.pi) ∧
    (d < 0 → -Real.pi < unwrapPhase M d ∧ unwrapPhase M d ≤ Real.pi) := by
  have hpi := Real.pi_pos
  have hx : d = 2 * Real.pi * (d / (2 * Real.pi)) := by field_simp
  have hb := roundHalfAway_bounds (d / (2 * Real.pi))
  rw [unwrapPhase_exact M hM]
  constructor
  · intro h
    obtain ⟨h1, h2⟩ := hb.1 (div_nonneg h (by positivity))
    constructor
    · nlinarith
    · nlinarith
  · intro h
    obtain ⟨h1, h2⟩ := hb.2 (div_neg_of_neg_of_pos h (by positivity))
    constructor
    · nlinarith
    · nlinarith

theorem roundHalfAway_eq_zero (x : ℝ) (h1 : -(1 / 2) < x) (h2 : x < 1 / 2) :
    roundHalfAway x = 0 := by
  unfold roundHalfAway
  split
  · rw [Int.floor_eq_iff]
    constructor <;> push_cast <;> linarith
  · rw [Int.ceil_eq_iff]
    constructor <;> push_cast <;> linarith

/-- Line 109 in terms of the two steps before it: the phase difference of line 103 and
its unwrapping on line 106. -/
theorem advancePhase_unwrap {R C : Type} [Field R] [Field C] (M : Numerics R C)
    (window_size hop_size : Nat) (time_stretch : R) (k : Nat) (z last new : C) :
    advancePhase M window_size hop_size time_stretch k z last new
      = new + M.ofReal ((2 * M.PI * (k : R) / (window_size : R)
          + unwrapPhase M (deltaPhase M z last) / (hop_size : R))
          * (hop_size : R) * time_stretch) := rfl

theorem unwrapPhase_pi (M : Numerics ℝ ℂ) (hM : M.Exact) :
    unwrapPhase M Real.pi = -Real.pi := by
  have hpi := Real.pi_pos
  have h : Real.pi / (2 * Real.pi) = 1 / 2 := by
    field_simp
    ring
  have hr : roundHalfAway ((1 : ℝ) / 2) = 1 := by
    unfold roundHalfAway
    rw [if_pos (by norm_num)]
    norm_num
  rw [unwrapPhase_exact M hM, h, hr]
  push_cast
  ring

/-- A value strictly between -pi and pi is unwrapped to itself. -/
theorem unwrapPhase_of_abs_lt (M : Numerics ℝ ℂ) (hM : M.Exact) (u : ℝ)
    (hu : |u| < Real.pi) : unwrapPhase M u = u := by
  have hpi := Real.pi_pos
  rw [abs_lt] at hu
  have h1 : -(1 / 2) < u / (2 * Real.pi) := by
    rw [lt_div_iff₀ (by positivity)]
    linarith
  have h2 : u / (2 * Real.pi) < 1 / 2 := by
    rw [div_lt_iff₀ (by positivity)]
    linarith
  rw [unwrapPhase_exact M hM, roundHalfAway_eq_zero _ h1 h2]
  simp

end Unwrap

section Pcm

theorem clamp_of_mem (s : ℝ) (h1 : -1 ≤ s) (h2 : s ≤ 1) : clamp s (-1) 1 = s := by
  unfold clamp
  rw [if_neg (not_lt.mpr h1), if_neg (not_lt.mpr h2)]

/-- Truncation toward zero of a value between -32767 and 32767: the result exists, keeps
the bounds and is less than one away. -/
theorem toInt16_spec (y : ℝ) (h1 : -32767 ≤ y) (h2 : y ≤ 32767) :
    ∃ q : ℤ, toInt16 y = some q ∧ -32767 ≤ q ∧ q ≤ 32767 ∧ |(q : ℝ) - y| < 1 := by
  unfold toInt16
  by_cases h : 0 ≤ y
  · have f1 := Int.floor_le y
    have f2 := Int.lt_floor_add_one y
    have f3 : (0 : ℤ) ≤ ⌊y⌋ := Int.floor_nonneg.mpr h
    have f4 : ⌊y⌋ ≤ 32767 := by
      have : ((⌊y⌋ : ℤ) : ℝ) ≤ ((32767 : ℤ) : ℝ) := by push_cast; linarith
      exact_mod_cast this
    simp only [if_pos h]
    rw [if_pos ⟨by omega, f4⟩]
    refine ⟨⌊y⌋, rfl, by omega, f4, ?_⟩
    rw [abs_lt]
    constructor <;> linarith
  · have hy : y < 0 := not_le.mp h
    have c1 := Int.le_ceil y
    have c2 := Int.ceil_lt_add_one y
    have c3 : ⌈y⌉ ≤ 0 := Int.ceil_le.mpr (by push_cast; linarith)
    have c4 : -32767 ≤ ⌈y⌉ := by
      have : ((-32767 : ℤ) : ℝ) ≤ ((⌈y⌉ : ℤ) : ℝ) := by push_cast; linarith
      exact_mod_cast this
    simp only [if_neg h]
    rw [if_pos ⟨by omega, by omega⟩]
    refine ⟨⌈y⌉, rfl, c4, by omega, ?_⟩
    rw [abs_lt]
    constructor <;> linarith

end Pcm

section Claims

open Complex

/-- C11: for every N ≥ 2, `hanning_window(N)` has length N and element n equals
`0.5 * (1 - cos(2*pi*n/(N-1)))`; its first element and its last element (index N-1) are
exactly 0, and when N is odd its midpoint element, at index (N-1)/2, is 1. -/
theorem hanning_window_shape (M : Numerics ℝ ℂ) (hM : M.Exact) (N : Nat) (hN : 2 ≤ N) :
    (hanning_window M N).length = N ∧
    (∀ n, n < N → (hanning_window M N)[n]?
      = some (0.5 * (1 - Real.cos (2 * Real.pi * (n : ℝ) / ((N : ℝ) - 1))))) ∧
    (hanning_window M N)[0]? = some 0 ∧
    (hanning_window M N)[N - 1]? = some 0 ∧
    (N % 2 = 1 → (hanning_window M N)[(N - 1) / 2]? = some 1) := by
  have hN1 : ((N : ℝ) - 1) ≠ 0 := by
    have : (2 : ℝ) ≤ (N : ℝ) := by exact_mod_cast hN
    linarith
  refine ⟨length_hanning_window M N, fun n hn => hanning_window_exact M hM N n (by omega) hn,
    ?_, ?_, ?_⟩
  · rw [hanning_window_exact M hM N 0 (by omega) (by omega)]
    simp
  · rw [hanning_window_exact M hM N (N - 1) (by omega) (by omega),
      Nat.cast_sub (by omega), Nat.cast_one, mul_div_assoc, div_self hN1, mul_one,
      Real.cos_two_pi]
    norm_num
  · intro hodd
    obtain ⟨h, hh⟩ : ∃ h, N = 2 * h + 1 := ⟨N / 2, by omega⟩
    have hidx : (N - 1) / 2 = h := by omega
    have hhpos : (h : ℝ) ≠ 0 := by
      have : 1 ≤ h := by omega
      have : (1 : ℝ) ≤ (h : ℝ) := by exact_mod_cast this
      linarith
    rw [hidx, hanning_window_exact M hM N h (by omega) (by omega)]
    have harg : 2 * Real.pi * (h : ℝ) / ((N : ℝ) - 1) = Real.pi := by
      rw [hh]
      push_cast
      field_simp
      ring
    rw [harg, Real.cos_pi]
    norm_num

/-- C11 at a concrete input, over exact arithmetic. -/
theorem hanning_window_shape_witness :
    ∃ M : Numerics ℝ ℂ, M.Exact ∧ 2 ≤ 5 ∧
      (hanning_window M 5).length = 5 ∧
      (∀ n : ℕ, n < 5 → (hanning_window M 5)[n]?
        = some (0.5 * (1 - Real.cos (2 * Real.pi * (n : ℝ) / (((5 : ℕ) : ℝ) - 1))))) ∧
      (hanning_window M 5)[0]? = some 0 ∧
      (hanning_window M 5)[5 - 1]? = some 0 ∧
      (5 % 2 = 1 → (hanning_window M 5)[(5 - 1) / 2]? = some 1) := by
  obtain ⟨M, hM⟩ := exists_exact
  exact ⟨M, hM, by decide, hanning_window_shape M hM 5 (by decide)⟩

/-- C14: for every sample s with -1 ≤ s ≤ 1, encoding s as `writeAudioData` does (clamp
to [-1, 1], multiply by 32767, truncate toward zero to a 16-bit signed integer) gives an
integer in [-32767, 32767], and decoding it as `readAudioData` does (divide by 32767)
gives a value d with `|d - s| < 1/32767`. -/
theorem pcm_round_trip (s : ℝ) (h1 : -1 ≤ s) (h2 : s ≤ 1) :
    ∃ q : ℤ, encodeSample s = some q ∧ -32767 ≤ q ∧ q ≤ 32767 ∧
      |(decodeSample q : ℝ) - s| < 1 / 32767 := by
  have hM : ((MAX_INT16 : ℤ) : ℝ) = 32767 := by
    unfold MAX_INT16
    norm_num
  obtain ⟨q, hq, hlo, hhi, hclose⟩ := toInt16_spec (s * 32767) (by linarith) (by linarith)
  refine ⟨q, ?_, hlo, hhi, ?_⟩
  · unfold encodeSample
    rw [clamp_of_mem s h1 h2, hM]
    exact hq
  · unfold decodeSample
    rw [hM]
    have e : (q : ℝ) / 32767 - s = ((q : ℝ) - s * 32767) / 32767 := by
      field_simp
      ring
    rw [e, abs_div, abs_of_pos (by norm_num : (0 : ℝ) < 32767)]
    exact div_lt_div_of_pos_right hclose (by norm_num)

/-- C14 at the sample 1/2. -/
theorem pcm_round_trip_witness :
    -1 ≤ (1 / 2 : ℝ) ∧ (1 / 2 : ℝ) ≤ 1 ∧
      ∃ q : ℤ, encodeSample (1 / 2 : ℝ) = some q ∧ -32767 ≤ q ∧ q ≤ 32767 ∧
        |(decodeSample q : ℝ) - 1 / 2| < 1 / 32767 :=
  ⟨by norm_num, by norm_num, pcm_round_trip (1 / 2) (by norm_num) (by norm_num)⟩

/-- C15: for every input signal shorter than one window (length < 1024), the empty
signal included, `stft` returns an empty spectrum sequence and `phase_vocoder` returns,
without a fault, exactly 1024 samples, all zero, whatever the stretch factor. -/
theorem short_input_silence {R C : Type} [Field R] [Field C] (M : Numerics R C)
    (signal : List R) (time_stretch : R) (sample_rate : Int) (h : signal.length < 1024) :
    stft M signal 1024 256 = some [] ∧
    phase_vocoder M signal time_stretch sample_rate = some (List.replicate 1024 0) ∧
    (List.replicate 1024 (0 : R)).length = 1024 := by
  refine ⟨?_, phase_vocoder_short M signal time_stretch sample_rate h,
    List.length_replicate _ _⟩
  exact stft_short M signal 1024 256 window_le_maxVectorSize h

/-- C15 at a signal of three samples. -/
theorem short_input_silence_witness :
    ∃ M : Numerics ℝ ℂ, M.Exact ∧ ([3, 1, 4] : List ℝ).length < 1024 ∧
      stft M [3, 1, 4] 1024 256 = some [] ∧
      phase_vocoder M [3, 1, 4] (3 / 2) 44100 = some (List.replicate 1024 0) ∧
      (List.replicate 1024 (0 : ℝ)).length = 1024 := by
  obtain ⟨M, hM⟩ := exists_exact
  exact ⟨M, hM, by decide, short_input_silence M [3, 1, 4] (3 / 2) 44100 (by decide)⟩

/-- C17, as stated, fails: the phase difference pi is unwrapped to -pi, which lies
outside the half-open interval (-pi, pi]. -/
theorem unwrap_half_open_counterexample :
    ∃ M : Numerics ℝ ℂ, M.Exact ∧ unwrapPhase M Real.pi = -Real.pi ∧
      ¬ (-Real.pi < unwrapPhase M Real.pi ∧ unwrapPhase M Real.pi ≤ Real.pi) := by
  obtain ⟨M, hM⟩ := exists_exact
  refine ⟨M, hM, unwrapPhase_pi M hM, ?_⟩
  rw [unwrapPhase_pi M hM]
  intro h
  exact lt_irrefl _ h.1

/-- C17, amended: for every real deltaPhase the unwrapping step yields a value in the
closed interval [-pi, pi]; the value is below pi when deltaPhase is non-negative and
above -pi when deltaPhase is negative. -/
theorem unwrap_closed_interval (M : Numerics ℝ ℂ) (hM : M.Exact) (delta_phase : ℝ) :
    (-Real.pi ≤ unwrapPhase M delta_phase ∧ unwrapPhase M delta_phase ≤ Real.pi) ∧
    (0 ≤ delta_phase → unwrapPhase M delta_phase < Real.pi) ∧
    (delta_phase < 0 → -Real.pi < unwrapPhase M delta_phase) := by
  have h := unwrapPhase_range M hM delta_phase
  refine ⟨?_, fun h0 => (h.1 h0).2, fun h0 => (h.2 h0).1⟩
  rcases le_or_lt 0 delta_phase with h0 | h0
  · exact ⟨(h.1 h0).1, (h.1 h0).2.le⟩
  · exact ⟨(h.2 h0).1.le, (h.2 h0).2⟩

/-- C17 (amended) at the phase difference 4. -/
theorem unwrap_closed_interval_witness :
    ∃ M : Numerics ℝ ℂ, M.Exact ∧
      (-Real.pi ≤ unwrapPhase M 4 ∧ unwrapPhase M 4 ≤ Real.pi) ∧
      (0 ≤ (4 : ℝ) → unwrapPhase M 4 < Real.pi) ∧
      ((4 : ℝ) < 0 → -Real.pi < unwrapPhase M 4) := by
  obtain ⟨M, hM⟩ := exists_exact
  exact ⟨M, hM, unwrap_closed_interval M hM 4⟩

/-- C20: for every real d, the unwrapped value `u = d - 2*pi*round(d / (2*pi))` differs
from d by an integer multiple of 2*pi and satisfies `|u| ≤ pi`; and every u with
`|u| < pi` is unwrapped to itself. -/
theorem unwrap_congruent_bounded_idempotent (M : Numerics ℝ ℂ) (hM : M.Exact) (d : ℝ) :
    (∃ n : ℤ, unwrapPhase M d = d - (n : ℝ) * (2 * Real.pi)) ∧
    |unwrapPhase M d| ≤ Real.pi ∧
    ∀ u : ℝ, |u| < Real.pi → unwrapPhase M u = u := by
  have hpi := Real.pi_pos
  refine ⟨⟨roundHalfAway (d / (2 * Real.pi)), ?_⟩, ?_, ?_⟩
  · rw [unwrapPhase_exact M hM]
    ring
  · have h := unwrapPhase_range M hM d
    rw [abs_le]
    rcases le_or_lt 0 d with h0 | h0
    · exact ⟨(h.1 h0).1, (h.1 h0).2.le⟩
    · exact ⟨(h.2 h0).1.le, (h.2 h0).2⟩
  · intro u hu
    exact unwrapPhase_of_abs_lt M hM u hu

/-- C20 at the phase difference 4. -/
theorem unwrap_congruent_bounded_idempotent_witness :
    ∃ M : Numerics ℝ ℂ, M.Exact ∧
      (∃ n : ℤ, unwrapPhase M 4 = 4 - (n : ℝ) * (2 * Real.pi)) ∧
      |unwrapPhase M 4| ≤ Real.pi ∧
      ∀ u : ℝ, |u| < Real.pi → unwrapPhase M u = u := by
  obtain ⟨M, hM⟩ := exists_exact
  exact ⟨M, hM, unwrap_congruent_bounded_idempotent M hM 4⟩

end Claims

section Spectrum

open Complex

theorem getD_zipWith {α : Type} (f : α → α → α) (l₁ l₂ : List α) (n : Nat) (d : α)
    (h₁ : n < l₁.length) (h₂ : n < l₂.length) :
    (List.zipWith f l₁ l₂).getD n d = f (l₁.getD n d) (l₂.getD n d) := by
  simp [List.getD_eq_getElem?_getD, List.getElem?_zipWith, List.getElem?_eq_getElem h₁,
    List.getElem?_eq_getElem h₂]

/-- Linearity of `fft` on buffers of `2 ^ m` elements. -/
theorem fft_zipWith (M : Numerics ℝ ℂ) (hM : M.Exact) (a b : ℂ) (x y : List ℂ) (m : ℕ)
    (hx : x.length = 2 ^ m) (hy : y.length = 2 ^ m) :
    fft M (List.zipWith (fun u v => a * u + b * v) x y)
      = List.zipWith (fun u v => a * u + b * v) (fft M x) (fft M y) := by
  have hz : (List.zipWith (fun u v => a * u + b * v) x y).length = 2 ^ m := by
    simp [hx, hy]
  apply list_eq_of_getD 0
  · simp [length_fft, hx, hy]
  · intro k hk
    rw [length_fft, hz] at hk
    rw [fft_getD_eq_dft M hM _ m hz k (by rw [hz]; exact hk),
      getD_zipWith _ _ _ k 0 (by rw [length_fft, hx]; exact hk)
        (by rw [length_fft, hy]; exact hk),
      fft_getD_eq_dft M hM x m hx k (by rw [hx]; exact hk),
      fft_getD_eq_dft M hM y m hy k (by rw [hy]; exact hk), hz, hx, hy,
      Finset.mul_sum, Finset.mul_sum, ← Finset.sum_add_distrib]
    apply Finset.sum_congr rfl
    intro n hn
    have hn' := Finset.mem_range.mp hn
    rw [getD_zipWith _ _ _ n 0 (by rw [hx]; exact hn') (by rw [hy]; exact hn')]
    ring

theorem getD_replicate_of_lt {α : Type} (N n : Nat) (c d : α) (h : n < N) :
    (List.replicate N c).getD n d = c := by
  simp [List.getD_eq_getElem?_getD, List.getElem?_replicate, h]

/-- The transform of a constant buffer of `2 ^ m` elements. -/
theorem fft_replicate (M : Numerics ℝ ℂ) (hM : M.Exact) (m : ℕ) (c : ℂ) (k : ℕ)
    (hk : k < 2 ^ m) :
    (fft M (List.replicate (2 ^ m) c)).getD k 0
      = if k = 0 then ((2 ^ m : ℕ) : ℂ) * c else 0 := by
  have hlen : (List.replicate (2 ^ m) c).length = 2 ^ m := List.length_replicate _ _
  rw [fft_getD_eq_dft M hM _ m hlen k (by rw [hlen]; exact hk), hlen]
  have hterm : ∀ n ∈ Finset.range (2 ^ m),
      (List.replicate (2 ^ m) c).getD n 0
          * cexp (-2 * Real.pi * I * k * n / ((2 ^ m : ℕ) : ℂ))
        = c * cexp (2 * Real.pi * I * ((-(k : ℤ) : ℤ) : ℂ) * n / ((2 ^ m : ℕ) : ℂ)) := by
    intro n hn
    rw [getD_replicate_of_lt _ _ _ _ (Finset.mem_range.mp hn)]
    congr 2
    push_cast
    ring
  rw [Finset.sum_congr rfl hterm, ← Finset.mul_sum]
  by_cases h0 : k = 0
  · subst h0
    simp [mul_comm]
  · rw [if_neg h0, sum_roots_eq_zero (2 ^ m) (-(k : ℤ)) (by omega)
      (by rw [abs_neg, Nat.abs_cast]; exact_mod_cast hk), mul_zero]

end Spectrum

section Claims

open Complex

/-- C12: `fft` is linear: for all complex scalars a, b and all complex buffers x, y of the
same power-of-two length, `fft(a*x + b*y) = a*fft(x) + b*fft(y)` element for element, over
exact complex arithmetic. -/
theorem fft_linear (M : Numerics ℝ ℂ) (hM : M.Exact) (a b : ℂ) (x y : List ℂ) (m : ℕ)
    (hx : x.length = 2 ^ m) (hy : y.length = 2 ^ m) :
    fft M (List.zipWith (fun u v => a * u + b * v) x y)
      = List.zipWith (fun u v => a * u + b * v) (fft M x) (fft M y) :=
  fft_zipWith M hM a b x y m hx hy

/-- C12 at two buffers of four elements. -/
theorem fft_linear_witness :
    ∃ M : Numerics ℝ ℂ, M.Exact ∧ ([1, 2, 3, 4] : List ℂ).length = 2 ^ 2 ∧
      ([I, 0, 5, 7] : List ℂ).length = 2 ^ 2 ∧
      fft M (List.zipWith (fun u v => 2 * u + I * v) [1, 2, 3, 4] [I, 0, 5, 7])
        = List.zipWith (fun u v => 2 * u + I * v) (fft M [1, 2, 3, 4]) (fft M [I, 0, 5, 7]) := by
  obtain ⟨M, hM⟩ := exists_exact
  exact ⟨M, hM, rfl, rfl, fft_linear M hM 2 I [1, 2, 3, 4] [I, 0, 5, 7] 2 rfl rfl⟩

/-- C13: for every power-of-two N ≥ 1 and every complex constant c, `fft` of the buffer of
N elements all equal to c has bin 0 equal to `N * c` and every other bin k
(1 ≤ k < N) equal to 0. -/
theorem fft_constant (M : Numerics ℝ ℂ) (hM : M.Exact) (N m : ℕ) (hN : N = 2 ^ m) (c : ℂ) :
    (fft M (List.replicate N c))[0]? = some ((N : ℂ) * c) ∧
    ∀ k, 1 ≤ k → k < N → (fft M (List.replicate N c))[k]? = some 0 := by
  subst hN
  have hpos : 0 < 2 ^ m := Nat.pos_pow_of_pos m (by decide)
  constructor
  · rw [getElem?_eq_some_getD _ 0 0 (by rw [length_fft, List.length_replicate]; exact hpos),
      fft_replicate M hM m c 0 hpos, if_pos rfl]
  · intro k hk1 hk
    rw [getElem?_eq_some_getD _ k 0 (by rw [length_fft, List.length_replicate]; exact hk),
      fft_replicate M hM m c k hk, if_neg (by omega)]

/-- C13 at eight elements equal to `3 + i`. -/
theorem fft_constant_witness :
    ∃ M : Numerics ℝ ℂ, M.Exact ∧ 8 = 2 ^ 3 ∧
      (fft M (List.replicate 8 (3 + I)))[0]? = some (((8 : ℕ) : ℂ) * (3 + I)) ∧
      ∀ k, 1 ≤ k → k < 8 → (fft M (List.replicate 8 (3 + I)))[k]? = some 0 := by
  obtain ⟨M, hM⟩ := exists_exact
  exact ⟨M, hM, by decide, fft_constant M hM 8 3 (by decide) (3 + I)⟩

end Claims

section Baseline

variable {R C : Type} [Field R] [Field C]

/-- Invariant rule for a counted loop that is known to have completed. -/
theorem forLoopM_completed {σ : Type} (P : Nat → σ → Prop) (body : Nat → σ → Option σ)
    (s₀ : σ) (n : Nat) (t : σ) (h : forLoopM n body s₀ = some t) (h₀ : P 0 s₀)
    (hstep : ∀ k, k < n → ∀ s u, P k s → body k s = some u → P (k + 1) u) : P n t := by
  induction n generalizing t with
  | zero =>
    simp only [forLoopM, Option.some.injEq] at h
    rw [← h]
    exact h₀
  | succ n ih =>
    rw [forLoopM_succ, Option.bind_eq_some] at h
    obtain ⟨u, hu, hb⟩ := h
    exact hstep n (Nat.lt_succ_self n) u t
      (ih u hu (fun k hk s v hs hv => hstep k (Nat.lt_succ_of_lt hk) s v hs hv)) hb

/-- What one iteration of the bin loop does to the two phase arrays. -/
theorem vocoderBin_phases (M : Numerics R C) (window_size hop_size : Nat) (time_stretch : R)
    (stft_frames : List (List C)) (i k : Nat) (s t : VocoderState C)
    (h : vocoderBin M window_size hop_size time_stretch stft_frames i k s = some t) :
    t.last_phase = s.last_phase ∧ k < s.new_phase.length ∧
      t.new_phase = s.new_phase.set k
        (advancePhase M window_size hop_size time_stretch k
          ((stft_frames.getD i []).getD k 0) (s.last_phase.getD k 0) (s.new_phase.getD k 0)) := by
  unfold vocoderBin at h
  simp only [Option.bind_eq_bind, Option.bind_eq_some] at h
  obtain ⟨analysed, ha, z, hz, last, hl, new, hn, frame, _, h⟩ := h
  split at h
  · simp only [Option.some.injEq] at h
    subst h
    have e1 : (stft_frames.getD i []).getD k 0 = z := by
      simp [List.getD_eq_getElem?_getD, ha, hz]
    have e2 : s.last_phase.getD k 0 = last := by
      simp [List.getD_eq_getElem?_getD, hl]
    have e3 : s.new_phase.getD k 0 = new := by
      simp [List.getD_eq_getElem?_getD, hn]
    refine ⟨rfl, (List.getElem?_eq_some.mp hn).1, ?_⟩
    rw [e1, e2, e3]
  · cases h

/-- A completed frame of the processing loop: every bin of `new_phase` has been advanced
from the state at the start of the frame, and `last_phase` is the copy of `new_phase`
made on line 112. -/
theorem vocoderFrame_phases (M : Numerics R C) (window_size hop_size : Nat) (time_stretch : R)
    (stft_frames : List (List C)) (i : Nat) (s t : VocoderState C)
    (h : vocoderFrame M window_size hop_size time_stretch stft_frames i s = some t) :
    t.last_phase = t.new_phase ∧
      ∀ k, k < window_size → t.last_phase[k]? = some
        (advancePhase M window_size hop_size time_stretch k
          ((stft_frames.getD i []).getD k 0) (s.last_phase.getD k 0) (s.new_phase.getD k 0)) := by
  unfold vocoderFrame at h
  simp only [Option.bind_eq_bind, Option.bind_eq_some, Option.some.injEq] at h
  obtain ⟨u, hu, ht⟩ := h
  have key := forLoopM_completed
    (fun j (v : VocoderState C) => v.last_phase = s.last_phase ∧
      v.new_phase.length = s.new_phase.length ∧
      ∀ k, v.new_phase[k]? =
        if k < j then some (advancePhase M window_size hop_size time_stretch k
          ((stft_frames.getD i []).getD k 0) (s.last_phase.getD k 0) (s.new_phase.getD k 0))
        else s.new_phase[k]?)
    _ s window_size u hu ⟨rfl, rfl, fun k => by simp⟩
    (by
      intro j _ v w ⟨hv1, hv2, hv3⟩ hw
      obtain ⟨hw1, hw2, hw3⟩ :=
        vocoderBin_phases M window_size hop_size time_stretch stft_frames i j v w hw
      have hj : v.new_phase[j]? = s.new_phase[j]? := by
        rw [hv3 j, if_neg (Nat.lt_irrefl j)]
      refine ⟨hw1.trans hv1, by rw [hw3, List.length_set, hv2], fun k => ?_⟩
      rw [hw3, hv1]
      have hgetD : v.new_phase.getD j 0 = s.new_phase.getD j 0 := by
        simp only [List.getD_eq_getElem?_getD, hj]
      rw [hgetD]
      by_cases hkj : j = k
      · subst hkj
        rw [List.getElem?_set_self hw2, if_pos (Nat.lt_succ_self j)]
      · rw [List.getElem?_set_ne hkj, hv3 k]
        by_cases hlt : k < j
        · rw [if_pos hlt, if_pos (by omega)]
        · rw [if_neg hlt, if_neg (by omega)])
  obtain ⟨_, _, hk3⟩ := key
  subst ht
  refine ⟨rfl, fun k hk => ?_⟩
  show u.new_phase[k]? = _
  rw [hk3 k, if_pos hk]

/-- After frame 0, at stretch factor 1.5, the value line 112 leaves in `last_phase[1]` is
never the phase observed in frame 0. -/
theorem advancePhase_ne_arg (M : Numerics ℝ ℂ) (hM : M.Exact) (z : ℂ) :
    M.real (advancePhase M 1024 256 (3 / 2) 1 z 0 0) ≠ M.arg z := by
  have hpi := Real.pi_pos
  have hu := unwrapPhase_exact M hM (deltaPhase M z 0)
  have hrange := unwrapPhase_range M hM (deltaPhase M z 0)
  have hd : deltaPhase M z 0 = M.arg z := by
    unfold deltaPhase
    rw [hM.real_eq]
    simp
  rw [hd] at hu hrange
  have hb : -Real.pi ≤ unwrapPhase M (M.arg z) ∧ unwrapPhase M (M.arg z) ≤ Real.pi := by
    rcases le_or_lt 0 (M.arg z) with h0 | h0
    · exact ⟨(hrange.1 h0).1, (hrange.1 h0).2.le⟩
    · exact ⟨(hrange.2 h0).1.le, (hrange.2 h0).2⟩
  have hval : M.real (advancePhase M 1024 256 (3 / 2) 1 z 0 0)
      = (Real.pi / 2 + unwrapPhase M (M.arg z)) * (3 / 2) := by
    rw [advancePhase_unwrap, hd, hM.real_eq, hM.ofReal_eq, hM.PI_eq]
    simp only [zero_add, Complex.ofReal_re]
    push_cast
    ring
  rw [hval]
  intro heq
  set n : ℤ := roundHalfAway (M.arg z / (2 * Real.pi)) with hn
  have h1 : unwrapPhase M (M.arg z) = 4 * Real.pi * (n : ℝ) - 3 / 2 * Real.pi := by
    linarith
  have h2 : (0 : ℝ) < (n : ℝ) := by
    by_contra hneg
    have : (n : ℝ) ≤ 0 := not_lt.mp hneg
    nlinarith [hb.1]
  have h3 : (1 : ℝ) ≤ (n : ℝ) := by
    have : (0 : ℤ) < n := by exact_mod_cast h2
    exact_mod_cast this
  nlinarith [hb.2]

end Baseline

section Reconstruction

end Reconstruction

section Claims

open Complex

/-- C16 (the code departs from it): on a signal of at least 1280 samples `stft` returns
two frames or more, and in the state `phase_vocoder` then starts its loop in, frame 0 is
not completed, its first bin faulting at the assignment of line 110, for every stretch
factor: line 112 is not reached and no phase difference is formed for a frame `i ≥ 1`. -/
theorem frame_zero_not_completed (M : Numerics ℝ ℂ) (signal : List ℝ) (time_stretch : ℝ)
    (h : 1280 ≤ signal.length) (hL : signal.length + 256 < sizeModulus) :
    ∃ frames, stft M signal 1024 256 = some frames ∧ 2 ≤ frames.length ∧
      vocoderFrame M 1024 256 time_stretch frames 0
        { last_phase := List.replicate 1024 0
          new_phase := List.replicate 1024 0
          processed_frames := List.replicate frames.length [] } = none := by
  have hs := stft_eq M signal 1024 256 (by decide) window_le_maxVectorSize hL
  have hlen : 2 ≤ ((List.range (frameCount signal.length 1024 256)).map
      (fun m => fft M (windowedFrame M signal (hanning_window M 1024) 1024
        (m * 256)))).length := by
    rw [List.length_map, List.length_range]
    unfold frameCount
    rw [if_pos (by omega)]
    omega
  refine ⟨_, hs, hlen, ?_⟩
  generalize (List.range (frameCount signal.length 1024 256)).map
    (fun m => fft M (windowedFrame M signal (hanning_window M 1024) 1024 (m * 256)))
    = frames at hlen ⊢
  cases frames with
  | nil => simp at hlen
  | cons frame frames => exact vocoderFrame_first_fault M 1023 256 time_stretch frame frames

/-- C16 (the code departs from it) at 1280 samples equal to 1, stretch factor 1.5. -/
theorem frame_zero_not_completed_witness :
    ∃ M : Numerics ℝ ℂ, M.Exact ∧ 1280 ≤ (List.replicate 1280 (1 : ℝ)).length ∧
      (List.replicate 1280 (1 : ℝ)).length + 256 < sizeModulus ∧
      ∃ frames, stft M (List.replicate 1280 (1 : ℝ)) 1024 256 = some frames ∧
        2 ≤ frames.length ∧
        vocoderFrame M 1024 256 (3 / 2) frames 0
          { last_phase := List.replicate 1024 0
            new_phase := List.replicate 1024 0
            processed_frames := List.replicate frames.length [] } = none := by
  obtain ⟨M, hM⟩ := exists_exact
  have h : 1280 ≤ (List.replicate 1280 (1 : ℝ)).length := by
    rw [List.length_replicate]
  have hL : (List.replicate 1280 (1 : ℝ)).length + 256 < sizeModulus := by
    rw [List.length_replicate]
    unfold sizeModulus
    norm_num
  exact ⟨M, hM, h, hL, frame_zero_not_completed M _ (3 / 2) h hL⟩

/-- C19 (the code departs from it): on every signal of at least 1024 samples
`phase_vocoder` returns no signal, whatever the stretch factor and the sample rate, the
first bin assignment being out of bounds; the length the claim gives, `F*256 + 1024`,
does exceed L, by at most 256. -/
theorem output_length_no_result {R C : Type} [Field R] [Field C] (M : Numerics R C)
    (signal : List R) (time_stretch : R) (sample_rate : Int) (h : 1024 ≤ signal.length) :
    phase_vocoder M signal time_stretch sample_rate = none ∧
    signal.length < frameCount signal.length 1024 256 * 256 + 1024 ∧
    frameCount signal.length 1024 256 * 256 + 1024 ≤ signal.length + 256 := by
  refine ⟨phase_vocoder_long M signal time_stretch sample_rate h, ?_⟩
  unfold frameCount
  rw [if_pos h]
  omega

/-- C19 (the code departs from it) at 1500 samples equal to 1/2. -/
theorem output_length_no_result_witness :
    ∃ M : Numerics ℝ ℂ, M.Exact ∧ 1024 ≤ (List.replicate 1500 (1 / 2 : ℝ)).length ∧
      phase_vocoder M (List.replicate 1500 (1 / 2 : ℝ)) (3 / 2) 44100 = none ∧
      (List.replicate 1500 (1 / 2 : ℝ)).length
        < frameCount (List.replicate 1500 (1 / 2 : ℝ)).length 1024 256 * 256 + 1024 ∧
      frameCount (List.replicate 1500 (1 / 2 : ℝ)).length 1024 256 * 256 + 1024
        ≤ (List.replicate 1500 (1 / 2 : ℝ)).length + 256 := by
  obtain ⟨M, hM⟩ := exists_exact
  have h : 1024 ≤ (List.replicate 1500 (1 / 2 : ℝ)).length := by
    rw [List.length_replicate]
    omega
  exact ⟨M, hM, h, output_length_no_result M _ (3 / 2) 44100 h⟩

end Claims

section Examples

open Complex

/-- For an even length no element of the window equals 1: the peak of the curve falls
between the two middle samples. -/
theorem hanning_window_even_ne_one (M : Numerics ℝ ℂ) (hM : M.Exact) (N n : Nat)
    (hN : 2 ≤ N) (heven : N % 2 = 0) (hn : n < N) :
    (hanning_window M N)[n]? ≠ some 1 := by
  rw [hanning_window_exact M hM N n (by omega) hn]
  intro h
  simp only [Option.some.injEq] at h
  have hcos : Real.cos (2 * Real.pi * (n : ℝ) / ((N : ℝ) - 1)) = -1 := by
    norm_num at h
    linarith
  rw [Real.cos_eq_neg_one_iff] at hcos
  obtain ⟨k, hk⟩ := hcos
  have hN1 : ((N : ℝ) - 1) ≠ 0 := by
    have : (2 : ℝ) ≤ (N : ℝ) := by exact_mod_cast hN
    linarith
  have hpi := Real.pi_pos
  have e : (((N : ℤ) - 1) * (1 + 2 * k) : ℝ) = ((2 * (n : ℤ) : ℤ) : ℝ) := by
    push_cast
    field_simp at hk
    have : Real.pi * (((N : ℝ) - 1) * (1 + 2 * (k : ℝ))) = Real.pi * (2 * (n : ℝ)) := by
      linarith
    exact mul_left_cancel₀ hpi.ne' this
  have e' : ((N : ℤ) - 1) * (1 + 2 * k) = 2 * (n : ℤ) := by exact_mod_cast e
  obtain ⟨h', hh'⟩ : ∃ h' : ℤ, (N : ℤ) = 2 * h' := ⟨(N : ℤ) / 2, by omega⟩
  rw [hh'] at e'
  have e'' : 2 * (h' + 2 * (h' * k) - k) - 1 = 2 * (n : ℤ) := by
    rw [← e']
    ring
  omega

/-- One frame of one bin, run with the store in bounds: the analysed value is `i`, of
phase pi/2; at stretch factor 2 the phase is advanced to pi, the value -1 is emitted, and
`last_phase` receives pi, the advanced phase, not pi/2. -/
theorem vocoderFrame_one_bin (M : Numerics ℝ ℂ) (hM : M.Exact) :
    vocoderFrame M 1 1 2 [[I]] 0
        { last_phase := [0], new_phase := [0], processed_frames := [[0]] }
      = some { last_phase := [(Real.pi : ℂ)], new_phase := [(Real.pi : ℂ)],
               processed_frames := [[-1]] } := by
  have hpi := Real.pi_pos
  have hd : deltaPhase M I 0 = Real.pi / 2 := by
    unfold deltaPhase
    rw [hM.arg_eq, hM.real_eq, Complex.arg_I]
    simp
  have hu : unwrapPhase M (Real.pi / 2) = Real.pi / 2 := by
    apply unwrapPhase_of_abs_lt M hM
    rw [abs_of_pos (by positivity)]
    linarith
  have hadv : advancePhase M 1 1 2 0 I 0 0 = (Real.pi : ℂ) := by
    rw [advancePhase_unwrap, hd, hu, hM.ofReal_eq, hM.PI_eq]
    push_cast
    ring
  have hemit : emitBin M I (Real.pi : ℂ) = -1 := by
    unfold emitBin
    rw [hM.polar_eq, hM.abs_eq, hM.real_eq, Complex.abs_I, Complex.ofReal_re,
      Complex.exp_pi_mul_I]
    simp
  simp only [vocoderFrame, forLoopM, vocoderBin, Option.bind_eq_bind, Option.some_bind,
    List.getElem?_cons_zero, hadv, hemit, List.length_cons, List.length_nil, Nat.zero_add,
    Nat.lt_one_iff, if_true, List.set_cons_zero]

end Examples

end Vocoder
